import Mathlib

/-!
Verification of the L2 lattice reduction kernel (`lattice_reduce` and
`size_reduce` from `src/l2/bigl2.rs`, with the vector primitives from
`src/vector.rs`).  The Rust code is shallowly embedded: bases are total
functions from row and coordinate indices to integers, the scratch
matrices are total functions to rationals, and the imperative loops are
fueled recursive functions.  A panic of the Rust code (a failed
assertion, an out-of-bounds matrix index, or a division of a `Rational`
by zero, which the bignum library rejects) is modelled by the
`Out.panic` outcome; `Out.fuel` reports exhaustion of the fuel and
corresponds to no behaviour of the source.  The parameters `eta` and
`delta` (f64 in the source signature, rationals in the specification)
are modelled by the exact rational values they denote.  The threshold
computations at `bigl2.rs` lines 37-38 add in f64 before the exact
conversion to `Rational`: `rnd52` models that binary64 rounding
(nearest multiple of `2 ^ (-52)`, ties to the even multiple),
`etaMinusF` and `deltaPlusF` are the constants the code actually
stores, and `lattice_reduceF` is the entry point using them, while
`lattice_reduce` keeps the exact-arithmetic idealization of the two
constants (the two agree whenever the sums `eta + 1/2` and `delta + 1`
are representable).
-/

namespace BigL2

/-- Panic causes of the kernel: a failed parameter assertion
(`bigl2.rs` lines 22-23), an out-of-bounds matrix index, or a division
of an exact rational by zero. -/
inductive Err where
  | param : Err
  | oob : Err
  | div : Err
deriving DecidableEq

/-- Outcome of a fueled run of an imperative function: fuel ran out, a
panic occurred, or the function returned normally. -/
inductive Out (α : Type) where
  | fuel : Out α
  | panic : Err → Out α
  | ok : α → Out α

/-- Mutable state of the reduction kernel: the basis rows, the Gram
matrix, the Gram coefficient matrix `mu` and the `r` matrix
(`bigl2.rs` lines 25-28). -/
structure St where
  basis : ℕ → ℕ → ℤ
  gram : ℕ → ℕ → ℤ
  mu : ℕ → ℕ → ℚ
  r : ℕ → ℕ → ℚ

/-- Exact dot product of two integer vectors of dimension `n`
(`BigVector::dot`, `vector.rs` lines 266-275). -/
def dotZ (n : ℕ) (u v : ℕ → ℤ) : ℤ :=
  ∑ j ∈ Finset.range n, u j * v j

/-- Write a single entry of a rational matrix. -/
def setQ (f : ℕ → ℕ → ℚ) (i j : ℕ) (v : ℚ) : ℕ → ℕ → ℚ :=
  fun a b => if a = i ∧ b = j then v else f a b

/-- Exchange two rows of a basis (`Matrix::swap`, used at
`bigl2.rs` line 62). -/
def swapRows (b : ℕ → ℕ → ℤ) (x y : ℕ) : ℕ → ℕ → ℤ :=
  fun a => if a = x then b y else if a = y then b x else b a

/-- Subtract `x` times row `i` from row `k` of the basis
(`basis[k] = basis[k].sub(&basis[i].mulf(&x))`, `bigl2.rs` line 124,
via `BigVector::sub` and `BigVector::mulf` from `vector.rs`). -/
def rowSubOp (b : ℕ → ℕ → ℤ) (k i : ℕ) (x : ℤ) : ℕ → ℕ → ℤ :=
  fun a => if a = k then (fun j => b k j - x * b i j) else b a

/-- Rounding of an exact rational to the nearest integer with ties
away from zero.  This models the `rug` bignum primitive
`Rational::fract_round`, the external collaborator used at
`bigl2.rs` line 123; the pair is (fractional part, rounded integer). -/
def rndAway (q : ℚ) : ℤ :=
  if 0 ≤ q then ⌊q + 1 / 2⌋ else ⌈q - 1 / 2⌉

/-- Model of `Rational::fract_round` returning the fractional part and
the nearest integer (ties away from zero). -/
def fract_round (q : ℚ) : ℚ × ℤ :=
  (q - (rndAway q : ℚ), rndAway q)

/-- The relaxed eta threshold, called `eta_minus` in the source
(`bigl2.rs` line 37), as the exact rational `(eta + 1/2) / 2`.  This is
an idealization: the source computes `(eta + 0.5) / 2.` in f64 before
converting, which rounds the sum; the faithful constant is `etaMinusF`
below, and the two coincide exactly when `eta + 1/2` is representable
in binary64. -/
def etaMinus (eta : ℚ) : ℚ := (eta + 1 / 2) / 2

/-- The relaxed delta threshold, called `delta_plus` in the source
(`bigl2.rs` line 38), as the exact rational `(delta + 1) / 2`.  This is
an idealization of the f64 computation `(delta + 1.) / 2.`; the
faithful constant is `deltaPlusF` below. -/
def deltaPlus (delta : ℚ) : ℚ := (delta + 1) / 2

/-- Left-hand side of the Lovasz test,
`delta_plus * r[k-1][k-1]` (`bigl2.rs` line 55). -/
def deltaCriterion (delta_p : ℚ) (st : St) (k : ℕ) : ℚ :=
  delta_p * st.r (k - 1) (k - 1)

/-- Right-hand side of the Lovasz test,
`r[k][k] + mu[k][k-1]^2 * r[k-1][k-1]` (`bigl2.rs` line 56). -/
def scalarCriterion (st : St) (k : ℕ) : ℚ :=
  st.r k k + st.mu k (k - 1) * st.mu k (k - 1) * st.r (k - 1) (k - 1)

/-- Sequencing of two steps that can panic. -/
def andThenE (x : Except Err St) (f : St → Except Err St) : Except Err St :=
  match x with
  | Except.error e => Except.error e
  | Except.ok st => f st

@[simp] theorem andThenE_error (e : Err) (f : St → Except Err St) :
    andThenE (Except.error e) f = Except.error e := rfl

@[simp] theorem andThenE_ok (st : St) (f : St → Except Err St) :
    andThenE (Except.ok st) f = f st := rfl

/-- Turn a step that can panic into an outcome, continuing on success. -/
def liftE (x : Except Err St) (f : St → Out St) : Out St :=
  match x with
  | Except.error e => Out.panic e
  | Except.ok st => f st

@[simp] theorem liftE_error (e : Err) (f : St → Out St) :
    liftE (Except.error e) f = Out.panic e := rfl

@[simp] theorem liftE_ok (st : St) (f : St → Out St) :
    liftE (Except.ok st) f = f st := rfl

/-- Sequencing of two fueled outcomes. -/
def bindOut (x : Out St) (f : St → Out St) : Out St :=
  match x with
  | Out.fuel => Out.fuel
  | Out.panic e => Out.panic e
  | Out.ok st => f st

@[simp] theorem bindOut_fuel (f : St → Out St) : bindOut Out.fuel f = Out.fuel := rfl

@[simp] theorem bindOut_panic (e : Err) (f : St → Out St) :
    bindOut (Out.panic e) f = Out.panic e := rfl

@[simp] theorem bindOut_ok (st : St) (f : St → Out St) :
    bindOut (Out.ok st) f = f st := rfl

/-- One column step of the `r`/`mu` refresh: set
`r[row][j] = gram[row][j] - sum of mu[j][t] * r[row][t] for t < j` and
then `mu[row][j] = r[row][j] / r[j][j]` (`bigl2.rs` lines 113-119 with
`row = k`, and lines 76-84 with `row = i`).  Division of a `Rational`
by zero panics in `rug`, modelled by the `.div` error. -/
def colStep (row j : ℕ) (st : St) : Except Err St :=
  let v : ℚ := (st.gram row j : ℚ) - ∑ t ∈ Finset.range j, st.mu j t * st.r row t
  let st1 : St := { st with r := setQ st.r row j v }
  if st1.r j j = 0 then Except.error Err.div
  else Except.ok { st1 with mu := setQ st1.mu row j (st1.r row j / st1.r j j) }

/-- Run `colStep row` for the columns `0, 1, ..., m - 1` in increasing
order: the refresh loop `for i in 0..=k` of `size_reduce`
(`bigl2.rs` lines 113-119) is `rowRef k (k + 1)`, and the inner loop
`for j in 0..=i` of the swap update (lines 76-84) is `rowRef i (i + 1)`. -/
def rowRef (row : ℕ) : ℕ → St → Except Err St
  | 0, st => Except.ok st
  | m + 1, st => andThenE (rowRef row m st) (colStep row m)

/-- Refresh of the `k`-th row and column of the Gram matrix after row
`k` of the basis changed: `for j in 0..d`, write
`gram[k][j] = basis[k].dot(basis[j])` when `j < k` and
`gram[j][k] = basis[k].dot(basis[j])` otherwise
(`bigl2.rs` lines 127-133). -/
def gramRowUpdate (k d n : ℕ) (st : St) : St :=
  { st with gram := fun a b =>
      if a = k ∧ b < k ∧ b < d then dotZ n (st.basis k) (st.basis b)
      else if b = k ∧ k ≤ a ∧ a < d then dotZ n (st.basis k) (st.basis a)
      else st.gram a b }

/-- Shift of the `mu` row `k` under the reduction step:
`for j in 0..i`, `mu[k][j] -= x * mu[i][j]` (`bigl2.rs` lines 135-138).
The writes touch distinct entries of row `k` and read only row `i`
(with `i < k`) and the written entry, so the loop is a pointwise
update. -/
def muShift (k i : ℕ) (x : ℤ) (st : St) : St :=
  { st with mu := fun a b =>
      if a = k ∧ b < i then st.mu k b - (x : ℚ) * st.mu i b else st.mu a b }

/-- One iteration of the reduction sweep of `size_reduce` at index `i`:
round `mu[k][i]`, subtract the multiple of row `i` from row `k`,
refresh the Gram row/column `k`, and shift `mu` row `k`
(`bigl2.rs` lines 122-138). -/
def passStep (k d n i : ℕ) (st : St) : St :=
  let x : ℤ := (fract_round (st.mu k i)).2
  let st1 : St := { st with basis := rowSubOp st.basis k i x }
  muShift k i x (gramRowUpdate k d n st1)

/-- The reduction sweep `for i in (0..k).rev()` of `size_reduce`
(`bigl2.rs` lines 122-139): `passDown k d n m` performs the iterations
at indices `m - 1, m - 2, ..., 0` in that order. -/
def passDown (k d n : ℕ) : ℕ → St → St
  | 0, st => st
  | m + 1, st => passDown k d n m (passStep k d n m st)

/-- The `eta`-size-reduction of row `k` (`size_reduce`,
`bigl2.rs` lines 103-142): refresh `mu` and `r` at row `k`, and if some
`mu[k][index] > eta` for `index < k`, run the reduction sweep and
recurse.  The recursion is fueled. -/
def size_reduce (eta : ℚ) (d n k : ℕ) : ℕ → St → Out St
  | 0, _ => Out.fuel
  | fuel + 1, st =>
    liftE (rowRef k (k + 1) st) fun st1 =>
      if ∃ j ∈ Finset.range k, eta < st1.mu k j then
        size_reduce eta d n k fuel (passDown k d n k st1)
      else Out.ok st1

/-- Refresh of the Gram matrix after swapping rows `k` and `k - 1`:
`for j in 0..d`, if `j < k` write `gram[k][j] = basis[k].dot(basis[j])`
and `gram[k-1][j] = basis[k-1].dot(basis[j])`, else write
`gram[j][k] = basis[k].dot(basis[j])` and
`gram[j][k-1] = basis[k-1].dot(basis[j])` (`bigl2.rs` lines 65-73).
The entry `(k, k-1)` is written twice with the same dot product; the
later write (iteration `j = k`) is the one kept. -/
def swapGramUpdate (k d n : ℕ) (st : St) : St :=
  { st with gram := fun a b =>
      if (b = k ∨ b = k - 1) ∧ k ≤ a ∧ a < d then dotZ n (st.basis b) (st.basis a)
      else if (a = k ∨ a = k - 1) ∧ b < k ∧ b < d then dotZ n (st.basis a) (st.basis b)
      else st.gram a b }

/-- The `mu`/`r` recomputation after a swap
(`for i in 0..=k { for j in 0..=i { ... } }`, `bigl2.rs` lines 76-84):
`swapRef m` processes the rows `0, ..., m - 1` in increasing order. -/
def swapRef : ℕ → St → Except Err St
  | 0, st => Except.ok st
  | i + 1, st => andThenE (swapRef i st) (rowRef i (i + 1))

/-- The main loop `while k < d` of `lattice_reduce`
(`bigl2.rs` lines 44-88), fueled.  Each iteration size-reduces row `k`,
then either advances `k` on the Lovasz test or swaps rows `k` and
`k - 1`, refreshes the Gram matrix and the `mu`/`r` matrices, and steps
`k` back to `max 1 (k - 1)`. -/
def reduceLoop (eta_m delta_p : ℚ) (d n : ℕ) : ℕ → ℕ → St → Out St
  | 0, _, _ => Out.fuel
  | fuel + 1, k, st =>
    if k < d then
      bindOut (size_reduce eta_m d n k (fuel + 1) st) fun st1 =>
        if deltaCriterion delta_p st1 k < scalarCriterion st1 k then
          reduceLoop eta_m delta_p d n fuel (k + 1) st1
        else
          liftE (swapRef (k + 1)
              (swapGramUpdate k d n { st1 with basis := swapRows st1.basis k (k - 1) }))
            (reduceLoop eta_m delta_p d n fuel (max 1 (k - 1)))
    else Out.ok st

/-- The parameter preconditions asserted at `bigl2.rs` lines 22-23:
`0.25 < delta < 1` and `0.5 < eta` with `eta * eta < delta`. -/
def paramsOk (eta delta : ℚ) : Prop :=
  1 / 4 < delta ∧ delta < 1 ∧ 1 / 2 < eta ∧ eta * eta < delta

instance (eta delta : ℚ) : Decidable (paramsOk eta delta) := by
  unfold paramsOk; infer_instance

/-- The entry point `lattice_reduce` (`bigl2.rs` lines 21-89): check
the parameter assertions, fill the lower triangle of the Gram matrix,
set `r[0][0] = gram[0][0]`, and run the main loop from `k = 1`.  When
`d = 0` the write `r[0][0]` indexes an empty matrix and panics. -/
def lattice_reduce (fuel d n : ℕ) (basis : ℕ → ℕ → ℤ) (eta delta : ℚ) :
    Out (ℕ → ℕ → ℤ) :=
  if paramsOk eta delta then
    if d = 0 then Out.panic Err.oob
    else
      let gram0 : ℕ → ℕ → ℤ :=
        fun i j => if i < d ∧ j ≤ i then dotZ n (basis i) (basis j) else 0
      let st0 : St :=
        { basis := basis, gram := gram0, mu := fun _ _ => 0,
          r := setQ (fun _ _ => 0) 0 0 ((gram0 0 0 : ℤ) : ℚ) }
      match reduceLoop (etaMinus eta) (deltaPlus delta) d n fuel 1 st0 with
      | Out.fuel => Out.fuel
      | Out.panic e => Out.panic e
      | Out.ok st => Out.ok st.basis
  else Out.panic Err.param

/-- The initial state of `lattice_reduce` (`bigl2.rs` lines 25-42):
the Gram matrix filled on its lower triangle, zero `mu` and `r`
matrices except `r[0][0] = gram[0][0]`. -/
def initSt (d n : ℕ) (basis : ℕ → ℕ → ℤ) : St :=
  { basis := basis,
    gram := fun i j => if i < d ∧ j ≤ i then dotZ n (basis i) (basis j) else 0,
    mu := fun _ _ => 0,
    r := setQ (fun _ _ => 0) 0 0
      (((if 0 < d ∧ (0 : ℕ) ≤ 0 then dotZ n (basis 0) (basis 0) else 0) : ℤ) : ℚ) }

theorem lattice_reduce_eq (fuel d n : ℕ) (basis : ℕ → ℕ → ℤ) (eta delta : ℚ)
    (hp : paramsOk eta delta) (hd : d ≠ 0) :
    lattice_reduce fuel d n basis eta delta =
      match reduceLoop (etaMinus eta) (deltaPlus delta) d n fuel 1 (initSt d n basis) with
      | Out.fuel => Out.fuel
      | Out.panic e => Out.panic e
      | Out.ok st => Out.ok st.basis := by
  rw [lattice_reduce, if_pos hp, if_neg hd]
  rfl

/-- Build a basis function from a list of integer rows (missing entries
are zero), for concrete test inputs. -/
def mkB (l : List (List ℤ)) : ℕ → ℕ → ℤ :=
  fun i j => (l.getD i []).getD j 0

/-- Extract the basis of a normal return, with a default. -/
def getOk {α : Type} : Out α → α → α
  | Out.ok a, _ => a
  | _, dflt => dflt

/-- Whether an outcome is a normal return. -/
def isOkOut {α : Type} : Out α → Bool
  | Out.ok _ => true
  | _ => false

/-- Rational inner product of two vectors of dimension `n`. -/
def iprod (n : ℕ) (u v : ℕ → ℚ) : ℚ :=
  ∑ j ∈ Finset.range n, u j * v j

/-- The exact Gram matrix of a basis, promoted to rationals
(spec section 3: `G[i][j] = <b_i, b_j>`). -/
def gramQ (n : ℕ) (B : ℕ → ℕ → ℤ) : ℕ → ℕ → ℚ :=
  fun i j => ((dotZ n (B i) (B j) : ℤ) : ℚ)

/-- Table of the first `m` columns of the `r` recurrence of spec
section 3: `r[i][j] = G[i][j] - sum of mu[j][t] * r[i][t] for t < j`
with `mu[j][t] = r[j][t] / r[t][t]`.  `colTab g m c i` is the value
`r[i][c]`, defined for `c < m` and stable as `m` grows. -/
def colTab (g : ℕ → ℕ → ℚ) : ℕ → ℕ → ℕ → ℚ
  | 0 => fun _ _ => 0
  | m + 1 => fun c i =>
      if c = m then
        g i m - ∑ t ∈ Finset.range m,
          (colTab g m t m / colTab g m t t) * colTab g m t i
      else colTab g m c i

/-- The `r` quantities determined by a Gram matrix via the recurrence of
spec section 3; `specR g i i` is the squared norm of the `i`-th
Gram-Schmidt vector. -/
def specR (g : ℕ → ℕ → ℚ) (i j : ℕ) : ℚ := colTab g (j + 1) j i

/-- The Gram-Schmidt coefficients `mu[i][j] = r[i][j] / r[j][j]` of
spec section 3. -/
def specMu (g : ℕ → ℕ → ℚ) (i j : ℕ) : ℚ := specR g i j / specR g j j

/-- Gram-Schmidt coefficient matrix of the basis returned by a run, or
`none` when the run did not return normally. -/
def okMuOut (n : ℕ) (o : Out (ℕ → ℕ → ℤ)) (i j : ℕ) : Option ℚ :=
  match o with
  | Out.ok b => some (specMu (gramQ n b) i j)
  | _ => none

/-- Table of the first `m` Gram-Schmidt vectors of a basis:
`b*_i = b_i - sum of mu[i][t] * b*_t for t < i` (spec glossary). -/
def bsTab (n : ℕ) (B : ℕ → ℕ → ℤ) : ℕ → ℕ → ℕ → ℚ
  | 0 => fun _ _ => 0
  | m + 1 => fun i j =>
      if i = m then
        (B m j : ℚ) - ∑ t ∈ Finset.range m, specMu (gramQ n B) m t * bsTab n B m t j
      else bsTab n B m i j

/-- The `i`-th Gram-Schmidt vector of a basis. -/
def bstar (n : ℕ) (B : ℕ → ℕ → ℤ) (i : ℕ) : ℕ → ℚ := bsTab n B (i + 1) i

/-- Linear independence over the rationals of the first `d` rows of a
basis, coordinates `0, ..., n - 1`. -/
def LinIndepRowsQ (d n : ℕ) (B : ℕ → ℕ → ℤ) : Prop :=
  ∀ c : ℕ → ℚ, (∀ j < n, ∑ i ∈ Finset.range d, c i * (B i j : ℚ) = 0) →
    ∀ i < d, c i = 0

/-- Membership of a vector in the set of integer linear combinations of
the first `d` rows of a basis (the integer row-span). -/
def inSpanZ (d n : ℕ) (B : ℕ → ℕ → ℤ) (v : ℕ → ℤ) : Prop :=
  ∃ c : ℕ → ℤ, ∀ j < n, v j = ∑ i ∈ Finset.range d, c i * B i j

/-- Reachability of one basis from another by the elementary unimodular
row operations the kernel performs: subtracting an integer multiple of
an earlier row from row `k` (`size_reduce`, `bigl2.rs` line 124) and
swapping rows `k` and `k - 1` (`bigl2.rs` line 62). -/
inductive ElemReach (d : ℕ) (B : ℕ → ℕ → ℤ) : (ℕ → ℕ → ℤ) → Prop where
  | refl : ElemReach d B B
  | sub (B' : ℕ → ℕ → ℤ) (k i : ℕ) (x : ℤ) (hik : i < k) (hk : k < d)
      (h : ElemReach d B B') : ElemReach d B (rowSubOp B' k i x)
  | swap (B' : ℕ → ℕ → ℤ) (k : ℕ) (h1 : 1 ≤ k) (hk : k < d)
      (h : ElemReach d B B') : ElemReach d B (swapRows B' k (k - 1))

/-! ## Panic classification

The only panic the loop body can raise is a division of a rational by
zero; the parameter assertion is checked once on entry. -/

theorem colStep_error {row j : ℕ} {st : St} {e : Err}
    (h : colStep row j st = Except.error e) : e = Err.div := by
  simp only [colStep] at h
  split at h
  · exact (Except.error.injEq _ _).mp h.symm
  · exact absurd h (by simp)

theorem rowRef_error {row : ℕ} {e : Err} :
    ∀ {m : ℕ} {st : St}, rowRef row m st = Except.error e → e = Err.div := by
  intro m
  induction m with
  | zero => intro st h; simp [rowRef] at h
  | succ m ih =>
    intro st h
    rw [rowRef] at h
    rcases hm : rowRef row m st with e1 | st1 <;> rw [hm] at h <;> simp at h
    · obtain rfl := h
      exact ih hm
    · exact colStep_error h

theorem swapRef_error {e : Err} :
    ∀ {m : ℕ} {st : St}, swapRef m st = Except.error e → e = Err.div := by
  intro m
  induction m with
  | zero => intro st h; simp [swapRef] at h
  | succ m ih =>
    intro st h
    rw [swapRef] at h
    rcases hm : swapRef m st with e1 | st1 <;> rw [hm] at h <;> simp at h
    · obtain rfl := h
      exact ih hm
    · exact rowRef_error h

theorem size_reduce_panic {eta : ℚ} {d n k : ℕ} {e : Err} :
    ∀ {fuel : ℕ} {st : St}, size_reduce eta d n k fuel st = Out.panic e → e = Err.div := by
  intro fuel
  induction fuel with
  | zero => intro st h; simp [size_reduce] at h
  | succ fuel ih =>
    intro st h
    rw [size_reduce] at h
    rcases hm : rowRef k (k + 1) st with e1 | st1 <;> rw [hm] at h
    · simp at h
      obtain rfl := h
      exact rowRef_error hm
    · rw [liftE_ok] at h
      split at h
      · exact ih h
      · exact absurd h (by simp)

theorem reduceLoop_panic {eta_m delta_p : ℚ} {d n : ℕ} {e : Err} :
    ∀ {fuel k : ℕ} {st : St},
      reduceLoop eta_m delta_p d n fuel k st = Out.panic e → e = Err.div := by
  intro fuel
  induction fuel with
  | zero => intro k st h; simp [reduceLoop] at h
  | succ fuel ih =>
    intro k st h
    rw [reduceLoop] at h
    split at h
    · rcases hm : size_reduce eta_m d n k (fuel + 1) st with _ | e1 | st1 <;> rw [hm] at h
      · exact absurd h (by simp)
      · simp at h
        obtain rfl := h
        exact size_reduce_panic hm
      · rw [bindOut_ok] at h
        split at h
        · exact ih h
        · rcases hs : swapRef (k + 1)
              (swapGramUpdate k d n { st1 with basis := swapRows st1.basis k (k - 1) }) with
            e2 | st2 <;> rw [hs] at h
          · simp at h
            obtain rfl := h
            exact swapRef_error hs
          · rw [liftE_ok] at h
            exact ih h
    · exact absurd h (by simp)

theorem lattice_reduce_param_panic (fuel d n : ℕ) (B : ℕ → ℕ → ℤ) (eta delta : ℚ) :
    lattice_reduce fuel d n B eta delta = Out.panic Err.param ↔ ¬ paramsOk eta delta := by
  constructor
  · intro h hp
    by_cases hd : d = 0
    · subst hd
      rw [lattice_reduce, if_pos hp, if_pos rfl] at h
      exact absurd h (by simp)
    · rw [lattice_reduce_eq fuel d n B eta delta hp hd] at h
      rcases hm : reduceLoop (etaMinus eta) (deltaPlus delta) d n fuel 1 (initSt d n B) with
        _ | e | st <;> rw [hm] at h <;> simp at h
      obtain rfl := h
      exact absurd (reduceLoop_panic hm) (by simp)
  · intro hp
    rw [lattice_reduce, if_neg hp]

/-- Claim C4: `lattice_reduce` fails with a parameter-precondition panic
exactly when the bounds `1/4 < delta < 1` and `1/2 < eta`,
`eta^2 < delta` (equivalently `eta < sqrt delta` for positive `eta`) are
violated; in particular the calls with `(eta, delta) = (0.4, 0.75)` and
`(0.51, 0.2)` fail, and no parameter check failure occurs for in-range
parameters. -/
theorem C4_parameter_precondition :
    (∀ (fuel d n : ℕ) (B : ℕ → ℕ → ℤ) (eta delta : ℚ),
        lattice_reduce fuel d n B eta delta = Out.panic Err.param ↔ ¬ paramsOk eta delta)
    ∧ lattice_reduce 1 2 2 (mkB [[1, 0], [0, 1]]) (2 / 5) (3 / 4) = Out.panic Err.param
    ∧ lattice_reduce 1 2 2 (mkB [[1, 0], [0, 1]]) (51 / 100) (1 / 5) = Out.panic Err.param :=
  ⟨lattice_reduce_param_panic,
    (lattice_reduce_param_panic 1 2 2 (mkB [[1, 0], [0, 1]]) (2 / 5) (3 / 4)).mpr
      (by norm_num [paramsOk]),
    (lattice_reduce_param_panic 1 2 2 (mkB [[1, 0], [0, 1]]) (51 / 100) (1 / 5)).mpr
      (by norm_num [paramsOk])⟩

/-- Claim C1 fails on the code: the reduction-trigger at
`bigl2.rs` line 121 tests `mu[k][index] > eta` without an absolute
value, so on the independent basis with rows `(1,0)` and `(-10,1)` and
in-range parameters `eta = 51/100`, `delta = 3/4` the call returns
normally with `mu[1][0] = -10`, violating `|mu[1][0]| <= eta`. -/
theorem C1_size_reduction_failing_input :
    okMuOut 2 (lattice_reduce 8 2 2 (mkB [[1, 0], [-10, 1]]) (51 / 100) (3 / 4)) 1 0 =
      some (-10)
    ∧ ¬ (|(-10 : ℚ)| ≤ 51 / 100) := by
  constructor
  · with_unfolding_all decide
  · rw [abs_of_nonpos (by norm_num)]
    norm_num

/-- Claim C6: the multiplier taken in the reduction sweep is
`fract_round` of the current `mu[k][i]`, which rounds to the nearest
integer with `|mu - x| <= 1/2`; the half-integer case is decided by
rounding away from zero (the documented equivalent of the tie rule). -/
theorem C6_rounding (q : ℚ) :
    |q - ((fract_round q).2 : ℚ)| ≤ 1 / 2 ∧
      ∀ m : ℤ, q = (m : ℚ) + 1 / 2 →
        (fract_round q).2 = if 0 ≤ q then m + 1 else m := by
  have h2 : (fract_round q).2 = rndAway q := rfl
  constructor
  · rw [h2, rndAway]
    split
    · have h1 := Int.floor_le (q + 1 / 2)
      have h1b := Int.lt_floor_add_one (q + 1 / 2)
      rw [abs_le]
      constructor <;> linarith
    · have h1 := Int.le_ceil (q - 1 / 2)
      have h1b := Int.ceil_lt_add_one (q - 1 / 2)
      rw [abs_le]
      constructor <;> linarith
  · intro m hm
    rw [h2, rndAway]
    split
    · have he : q + 1 / 2 = ((m + 1 : ℤ) : ℚ) := by
        rw [hm]; push_cast; ring
      rw [he, Int.floor_intCast]
    · have he : q - 1 / 2 = ((m : ℤ) : ℚ) := by
        rw [hm]; ring
      rw [he, Int.ceil_intCast]

theorem C6_rounding_witness :
    |(3 : ℚ) / 2 - ((fract_round ((3 : ℚ) / 2)).2 : ℚ)| ≤ 1 / 2 ∧
      (fract_round ((3 : ℚ) / 2)).2 = 2 := by
  refine ⟨(C6_rounding (3 / 2)).1, ?_⟩
  have h := (C6_rounding (3 / 2)).2 1 (by norm_num)
  rw [h]
  norm_num

/-- Claim C10: on a basis of dimension 1 with in-range parameters,
`lattice_reduce` returns normally and leaves the basis unchanged: the
main loop starts at `k = 1` and never runs. -/
theorem C10_dimension_one (fuel n : ℕ) (B : ℕ → ℕ → ℤ) (eta delta : ℚ)
    (hp : paramsOk eta delta) (hf : 1 ≤ fuel) :
    lattice_reduce fuel 1 n B eta delta = Out.ok B := by
  obtain ⟨f, rfl⟩ : ∃ f, fuel = f + 1 := ⟨fuel - 1, by omega⟩
  rw [lattice_reduce_eq (f + 1) 1 n B eta delta hp one_ne_zero, reduceLoop,
    if_neg (by omega)]
  exact rfl

theorem C10_dimension_one_witness :
    lattice_reduce 1 1 2 (mkB [[5, 7]]) (51 / 100) (3 / 4) = Out.ok (mkB [[5, 7]]) :=
  C10_dimension_one 1 2 (mkB [[5, 7]]) (51 / 100) (3 / 4) (by norm_num [paramsOk])
    (le_refl 1)

/-! ## Lattice preservation: elementary operations preserve the span -/

theorem sum_pair_support {d i k : ℕ} (f : ℕ → ℤ) (hik : i ≠ k) (hi : i < d) (hk : k < d)
    (h0 : ∀ t, t ≠ i → t ≠ k → f t = 0) :
    ∑ t ∈ Finset.range d, f t = f i + f k := by
  have hsub : ({i, k} : Finset ℕ) ⊆ Finset.range d := by
    intro t ht
    simp only [Finset.mem_insert, Finset.mem_singleton] at ht
    rcases ht with rfl | rfl <;> simp [hi, hk]
  rw [← Finset.sum_subset hsub]
  · exact Finset.sum_pair hik
  · intro t _ ht
    simp only [Finset.mem_insert, Finset.mem_singleton, not_or] at ht
    exact h0 t ht.1 ht.2

theorem inSpanZ_rowSub_mp {d n : ℕ} (B : ℕ → ℕ → ℤ) {k i : ℕ} (x : ℤ)
    (hik : i < k) (hk : k < d) {v : ℕ → ℤ}
    (h : inSpanZ d n B v) : inSpanZ d n (rowSubOp B k i x) v := by
  obtain ⟨c, hc⟩ := h
  have hne : i ≠ k := by omega
  have hne2 : k ≠ i := by omega
  refine ⟨fun t => if t = i then c i + c k * x else c t, fun j hj => ?_⟩
  dsimp only
  rw [hc j hj]
  have hz : ∑ t ∈ Finset.range d,
      ((if t = i then c i + c k * x else c t) * rowSubOp B k i x t j - c t * B t j) = 0 := by
    rw [sum_pair_support _ hne (by omega) hk]
    · simp [rowSubOp, hne, hne2]
      ring
    · intro t hti htk
      simp only [rowSubOp, if_neg hti, if_neg htk]
      ring
  rw [Finset.sum_sub_distrib] at hz
  linarith [hz]

theorem rowSubOp_invol (B : ℕ → ℕ → ℤ) (k i : ℕ) (x : ℤ) (hik : i ≠ k) :
    rowSubOp (rowSubOp B k i x) k i (-x) = B := by
  funext a b
  simp only [rowSubOp]
  by_cases ha : a = k
  · subst ha
    simp [if_neg hik]
  · simp [ha]

theorem inSpanZ_rowSub {d n : ℕ} (B : ℕ → ℕ → ℤ) {k i : ℕ} (x : ℤ)
    (hik : i < k) (hk : k < d) (v : ℕ → ℤ) :
    inSpanZ d n B v ↔ inSpanZ d n (rowSubOp B k i x) v := by
  constructor
  · exact inSpanZ_rowSub_mp B x hik hk
  · intro h
    have h2 := inSpanZ_rowSub_mp (rowSubOp B k i x) (-x) hik hk h
    rwa [rowSubOp_invol B k i x (by omega)] at h2

theorem inSpanZ_swap_mp {d n : ℕ} (B : ℕ → ℕ → ℤ) {k : ℕ}
    (h1 : 1 ≤ k) (hk : k < d) {v : ℕ → ℤ}
    (h : inSpanZ d n B v) : inSpanZ d n (swapRows B k (k - 1)) v := by
  obtain ⟨c, hc⟩ := h
  have hne : k - 1 ≠ k := by omega
  refine ⟨fun t => if t = k then c (k - 1) else if t = k - 1 then c k else c t,
    fun j hj => ?_⟩
  dsimp only
  rw [hc j hj]
  have hz : ∑ t ∈ Finset.range d,
      ((if t = k then c (k - 1) else if t = k - 1 then c k else c t) *
          swapRows B k (k - 1) t j - c t * B t j) = 0 := by
    rw [sum_pair_support _ hne (by omega) hk]
    · simp [swapRows, hne]
    · intro t ht1 htk
      simp only [swapRows, if_neg htk, if_neg ht1]
      ring
  rw [Finset.sum_sub_distrib] at hz
  linarith [hz]

theorem swapRows_invol (B : ℕ → ℕ → ℤ) (k : ℕ) (h1 : 1 ≤ k) :
    swapRows (swapRows B k (k - 1)) k (k - 1) = B := by
  have hne : k - 1 ≠ k := by omega
  funext a b
  simp only [swapRows]
  by_cases ha : a = k
  · subst ha
    simp [hne]
  · by_cases ha2 : a = k - 1
    · subst ha2
      simp [ha]
    · simp [ha, ha2]

theorem inSpanZ_swap {d n : ℕ} (B : ℕ → ℕ → ℤ) {k : ℕ}
    (h1 : 1 ≤ k) (hk : k < d) (v : ℕ → ℤ) :
    inSpanZ d n B v ↔ inSpanZ d n (swapRows B k (k - 1)) v := by
  constructor
  · exact inSpanZ_swap_mp B h1 hk
  · intro h
    have h2 := inSpanZ_swap_mp (swapRows B k (k - 1)) h1 hk h
    rwa [swapRows_invol B k h1] at h2

theorem ElemReach_trans {d : ℕ} {B1 B2 B3 : ℕ → ℕ → ℤ}
    (h1 : ElemReach d B1 B2) (h2 : ElemReach d B2 B3) : ElemReach d B1 B3 := by
  induction h2 with
  | refl => exact h1
  | sub B' k i x hik hk _ ih => exact ElemReach.sub B' k i x hik hk ih
  | swap B' k hk1 hk _ ih => exact ElemReach.swap B' k hk1 hk ih

theorem ElemReach_span {d : ℕ} (n : ℕ) {B B' : ℕ → ℕ → ℤ} (h : ElemReach d B B') :
    ∀ v, inSpanZ d n B v ↔ inSpanZ d n B' v := by
  induction h with
  | refl => exact fun _ => Iff.rfl
  | sub B1 k i x hik hk _ ih =>
    exact fun v => (ih v).trans (inSpanZ_rowSub B1 x hik hk v)
  | swap B1 k hk1 hk _ ih =>
    exact fun v => (ih v).trans (inSpanZ_swap B1 hk1 hk v)

/-! ## The loop only performs elementary row operations -/

theorem colStep_ok_fields {row j : ℕ} {st st1 : St} (h : colStep row j st = Except.ok st1) :
    st1.basis = st.basis ∧ st1.gram = st.gram := by
  simp only [colStep] at h
  split at h
  · exact absurd h (by simp)
  · obtain rfl : _ = st1 := by simpa using h
    exact ⟨rfl, rfl⟩

theorem rowRef_ok_fields {row : ℕ} : ∀ {m : ℕ} {st st1 : St},
    rowRef row m st = Except.ok st1 → st1.basis = st.basis ∧ st1.gram = st.gram := by
  intro m
  induction m with
  | zero =>
    intro st st1 h
    obtain rfl : st = st1 := by simpa [rowRef] using h
    exact ⟨rfl, rfl⟩
  | succ m ih =>
    intro st st1 h
    rw [rowRef] at h
    rcases hm : rowRef row m st with e | st2 <;> rw [hm] at h
    · simp at h
    · rw [andThenE_ok] at h
      obtain ⟨hb, hg⟩ := colStep_ok_fields h
      obtain ⟨hb2, hg2⟩ := ih hm
      exact ⟨hb.trans hb2, hg.trans hg2⟩

theorem swapRef_ok_fields : ∀ {m : ℕ} {st st1 : St},
    swapRef m st = Except.ok st1 → st1.basis = st.basis ∧ st1.gram = st.gram := by
  intro m
  induction m with
  | zero =>
    intro st st1 h
    obtain rfl : st = st1 := by simpa [swapRef] using h
    exact ⟨rfl, rfl⟩
  | succ m ih =>
    intro st st1 h
    rw [swapRef] at h
    rcases hm : swapRef m st with e | st2 <;> rw [hm] at h
    · simp at h
    · rw [andThenE_ok] at h
      obtain ⟨hb, hg⟩ := rowRef_ok_fields h
      obtain ⟨hb2, hg2⟩ := ih hm
      exact ⟨hb.trans hb2, hg.trans hg2⟩

theorem passDown_reach (k d n : ℕ) (hk : k < d) :
    ∀ (m : ℕ), m ≤ k → ∀ st : St, ElemReach d st.basis (passDown k d n m st).basis := by
  intro m
  induction m with
  | zero => exact fun _ _ => ElemReach.refl
  | succ m ih =>
    intro hm st
    rw [passDown]
    have h1 : ElemReach d st.basis (passStep k d n m st).basis :=
      ElemReach.sub st.basis k m ((fract_round (st.mu k m)).2) (by omega) hk ElemReach.refl
    exact ElemReach_trans h1 (ih (by omega) (passStep k d n m st))

theorem size_reduce_reach {eta : ℚ} {d n k : ℕ} (hk : k < d) :
    ∀ {fuel : ℕ} {st st1 : St}, size_reduce eta d n k fuel st = Out.ok st1 →
      ElemReach d st.basis st1.basis := by
  intro fuel
  induction fuel with
  | zero => intro st st1 h; simp [size_reduce] at h
  | succ fuel ih =>
    intro st st1 h
    rw [size_reduce] at h
    rcases hm : rowRef k (k + 1) st with e | st2 <;> rw [hm] at h
    · simp at h
    · rw [liftE_ok] at h
      have hb : st2.basis = st.basis := (rowRef_ok_fields hm).1
      split at h
      · have h2 := passDown_reach k d n hk k (le_refl k) st2
        rw [hb] at h2
        exact ElemReach_trans h2 (ih h)
      · obtain rfl : st2 = st1 := by simpa using h
        rw [← hb]
        exact ElemReach.refl

theorem reduceLoop_reach {eta_m delta_p : ℚ} {d n : ℕ} :
    ∀ {fuel k : ℕ} {st st1 : St}, 1 ≤ k →
      reduceLoop eta_m delta_p d n fuel k st = Out.ok st1 →
      ElemReach d st.basis st1.basis := by
  intro fuel
  induction fuel with
  | zero => intro k st st1 _ h; simp [reduceLoop] at h
  | succ fuel ih =>
    intro k st st1 hk1 h
    rw [reduceLoop] at h
    split at h
    case isTrue hkd =>
      rcases hm : size_reduce eta_m d n k (fuel + 1) st with _ | e | st2 <;> rw [hm] at h
      · simp at h
      · simp at h
      · rw [bindOut_ok] at h
        split at h
        · exact ElemReach_trans (size_reduce_reach hkd hm) (ih (by omega) h)
        · rcases hs : swapRef (k + 1)
              (swapGramUpdate k d n { st2 with basis := swapRows st2.basis k (k - 1) }) with
            e | st3 <;> rw [hs] at h
          · simp at h
          · rw [liftE_ok] at h
            have hb : st3.basis = swapRows st2.basis k (k - 1) := (swapRef_ok_fields hs).1
            have hswap : ElemReach d st2.basis st3.basis := by
              rw [hb]
              exact ElemReach.swap st2.basis k hk1 hkd ElemReach.refl
            exact ElemReach_trans (size_reduce_reach hkd hm)
              (ElemReach_trans hswap (ih (le_max_left 1 (k - 1)) h))
    case isFalse =>
      obtain rfl : st = st1 := by simpa using h
      exact ElemReach.refl

theorem lattice_reduce_ok {fuel d n : ℕ} {B : ℕ → ℕ → ℤ} {eta delta : ℚ}
    {B' : ℕ → ℕ → ℤ} (h : lattice_reduce fuel d n B eta delta = Out.ok B') :
    paramsOk eta delta ∧ d ≠ 0 ∧
      ∃ st : St, reduceLoop (etaMinus eta) (deltaPlus delta) d n fuel 1 (initSt d n B) =
          Out.ok st ∧ st.basis = B' := by
  by_cases hp : paramsOk eta delta
  · by_cases hd : d = 0
    · subst hd
      rw [lattice_reduce, if_pos hp, if_pos rfl] at h
      exact absurd h (by simp)
    · rw [lattice_reduce_eq fuel d n B eta delta hp hd] at h
      rcases hm : reduceLoop (etaMinus eta) (deltaPlus delta) d n fuel 1 (initSt d n B) with
        _ | e | st <;> rw [hm] at h <;> simp at h
      exact ⟨hp, hd, st, rfl, h⟩
  · rw [lattice_reduce, if_neg hp] at h
    exact absurd h (by simp)

/-- Claim C3: every mutation `lattice_reduce` performs on the basis is
an elementary unimodular row operation (a swap of rows `k`, `k - 1` or
`row k <- row k - x * row i` with integer `x` and `i < k`), so after a
normal return the integer row-span of the output basis equals that of
the input basis. -/
theorem C3_lattice_preservation (fuel d n : ℕ) (B B' : ℕ → ℕ → ℤ) (eta delta : ℚ)
    (h : lattice_reduce fuel d n B eta delta = Out.ok B') :
    ElemReach d B B' ∧ ∀ v, (inSpanZ d n B v ↔ inSpanZ d n B' v) := by
  obtain ⟨hp, hd, st, hm, hbasis⟩ := lattice_reduce_ok h
  have hreach : ElemReach d B B' := by
    have := reduceLoop_reach (le_refl 1) hm
    rw [hbasis] at this
    exact this
  exact ⟨hreach, ElemReach_span n hreach⟩

/-- Concrete input for the C3 witness. -/
def c3wB : ℕ → ℕ → ℤ := mkB [[1, 0], [-10, 1]]

/-- Output basis of the C3 witness run. -/
def c3wOut : ℕ → ℕ → ℤ := getOk (lattice_reduce 8 2 2 c3wB (51 / 100) (3 / 4)) (mkB [])


/-! ## Detailed effect of the refresh loops -/

theorem setQ_same (f : ℕ → ℕ → ℚ) (i j : ℕ) (v : ℚ) : setQ f i j v i j = v := by
  simp [setQ]

theorem setQ_ne (f : ℕ → ℕ → ℚ) (i j : ℕ) (v : ℚ) {a b : ℕ} (h : a ≠ i ∨ b ≠ j) :
    setQ f i j v a b = f a b := by
  rcases h with h | h <;> simp [setQ, h]

theorem colStep_ok_spec {row j : ℕ} {st st1 : St} (h : colStep row j st = Except.ok st1) :
    st1.basis = st.basis ∧ st1.gram = st.gram ∧
      st1.r = setQ st.r row j
        ((st.gram row j : ℚ) - ∑ t ∈ Finset.range j, st.mu j t * st.r row t) ∧
      st1.mu = setQ st.mu row j (st1.r row j / st1.r j j) ∧
      st1.r j j ≠ 0 := by
  simp only [colStep] at h
  split at h
  · exact absurd h (by simp)
  · rename_i hne
    obtain rfl : _ = st1 := by simpa using h
    exact ⟨rfl, rfl, rfl, rfl, hne⟩

theorem rowRef_ok_spec {row : ℕ} : ∀ {m : ℕ} {st st1 : St}, m ≤ row + 1 →
    rowRef row m st = Except.ok st1 →
    (∀ a b, a ≠ row → st1.r a b = st.r a b) ∧
    (∀ a b, a ≠ row → st1.mu a b = st.mu a b) ∧
    (∀ b, m ≤ b → st1.r row b = st.r row b ∧ st1.mu row b = st.mu row b) ∧
    (∀ j < m, st1.r row j =
        (st.gram row j : ℚ) - ∑ t ∈ Finset.range j, st1.mu j t * st1.r row t) ∧
    (∀ j < m, st1.mu row j = st1.r row j / st1.r j j ∧ st1.r j j ≠ 0) := by
  intro m
  induction m with
  | zero =>
    intro st st1 _ h
    obtain rfl : st = st1 := by simpa [rowRef] using h
    exact ⟨fun _ _ _ => rfl, fun _ _ _ => rfl, fun _ _ => ⟨rfl, rfl⟩,
      fun j hj => absurd hj (by omega), fun j hj => absurd hj (by omega)⟩
  | succ m ih =>
    intro st st1 hm h
    rw [rowRef] at h
    rcases hmm : rowRef row m st with e | st2 <;> rw [hmm] at h
    · simp at h
    · rw [andThenE_ok] at h
      obtain ⟨ihr, ihmu, ihhigh, ihrec, ihdiv⟩ := ih (by omega) hmm
      obtain ⟨hb, hg, hr, hmu, hdiv⟩ := colStep_ok_spec h
      have hrne : ∀ a b, (a ≠ row ∨ b ≠ m) → st1.r a b = st2.r a b := by
        intro a b hab
        rw [hr, setQ_ne _ _ _ _ hab]
      have hmune : ∀ a b, (a ≠ row ∨ b ≠ m) → st1.mu a b = st2.mu a b := by
        intro a b hab
        rw [hmu, setQ_ne _ _ _ _ hab]
      have hrm : st1.r row m =
          (st.gram row m : ℚ) - ∑ t ∈ Finset.range m, st2.mu m t * st2.r row t := by
        rw [hr, setQ_same, (rowRef_ok_fields hmm).2]
      have hmum : st1.mu row m = st1.r row m / st1.r m m := by
        rw [hmu, setQ_same]
      refine ⟨?_, ?_, ?_, ?_, ?_⟩
      · intro a b ha
        rw [hrne a b (Or.inl ha), ihr a b ha]
      · intro a b ha
        rw [hmune a b (Or.inl ha), ihmu a b ha]
      · intro b hb
        constructor
        · rw [hrne row b (Or.inr (by omega)), (ihhigh b (by omega)).1]
        · rw [hmune row b (Or.inr (by omega)), (ihhigh b (by omega)).2]
      · intro j hj
        rcases Nat.lt_succ_iff_lt_or_eq.mp hj with hj2 | rfl
        · have hjrow : j ≠ row := by omega
          rw [hrne row j (Or.inr (by omega)), ihrec j hj2]
          congr 1
          apply Finset.sum_congr rfl
          intro t ht
          simp only [Finset.mem_range] at ht
          rw [hmune j t (Or.inl hjrow), hrne row t (Or.inr (by omega))]
        · rw [hrm]
          congr 1
          apply Finset.sum_congr rfl
          intro t ht
          simp only [Finset.mem_range] at ht
          by_cases hjr : j = row
          · subst hjr
            rw [hmune j t (Or.inr (by omega)), hrne j t (Or.inr (by omega))]
          · rw [hmune j t (Or.inl hjr), hrne row t (Or.inr (by omega))]
      · intro j hj
        rcases Nat.lt_succ_iff_lt_or_eq.mp hj with hj2 | rfl
        · obtain ⟨hmuj, hdivj⟩ := ihdiv j hj2
          have hjrow : j ≠ row := by omega
          have hjm : j ≠ m := by omega
          refine ⟨?_, ?_⟩
          · rw [hmune row j (Or.inr hjm), hrne row j (Or.inr hjm),
              hrne j j (Or.inl hjrow), hmuj]
          · rw [hrne j j (Or.inl hjrow)]
            exact hdivj
        · exact ⟨hmum, hdiv⟩

/-! ## Effect of the reduction sweep on the state -/

theorem dotZ_comm (n : ℕ) (u v : ℕ → ℤ) : dotZ n u v = dotZ n v u := by
  unfold dotZ
  exact Finset.sum_congr rfl fun j _ => mul_comm _ _

theorem rowSubOp_ne (B : ℕ → ℕ → ℤ) (k i : ℕ) (x : ℤ) {a : ℕ} (ha : a ≠ k) :
    rowSubOp B k i x a = B a := by
  simp [rowSubOp, ha]

theorem passStep_r (k d n i : ℕ) (st : St) : (passStep k d n i st).r = st.r := rfl

theorem passStep_basis (k d n i : ℕ) (st : St) :
    (passStep k d n i st).basis = rowSubOp st.basis k i ((fract_round (st.mu k i)).2) := rfl

theorem passStep_basis_ne (k d n i : ℕ) (st : St) {a : ℕ} (ha : a ≠ k) :
    (passStep k d n i st).basis a = st.basis a := by
  rw [passStep_basis]
  simp [rowSubOp, ha]

theorem passStep_mu_ne (k d n i : ℕ) (st : St) {a : ℕ} (b : ℕ) (ha : a ≠ k) :
    (passStep k d n i st).mu a b = st.mu a b := by
  show (muShift k i _ _).mu a b = _
  simp [muShift, gramRowUpdate, ha]

theorem passStep_gram_ne (k d n i : ℕ) (st : St) {a b : ℕ} (ha : a ≠ k) (hb : b ≠ k) :
    (passStep k d n i st).gram a b = st.gram a b := by
  show (muShift k i _ (gramRowUpdate k d n _)).gram a b = _
  simp only [muShift, gramRowUpdate]
  rw [if_neg (by tauto), if_neg (by tauto)]

theorem passStep_gram_coh {k d n i : ℕ} {st : St} (hk : k < d)
    (h : ∀ a < d, ∀ b ≤ a, st.gram a b = dotZ n (st.basis a) (st.basis b)) :
    ∀ a < d, ∀ b ≤ a, (passStep k d n i st).gram a b =
      dotZ n ((passStep k d n i st).basis a) ((passStep k d n i st).basis b) := by
  intro a ha b hba
  have hbd : b < d := by omega
  show (muShift k i _ (gramRowUpdate k d n _)).gram a b = _
  simp only [muShift, gramRowUpdate]
  by_cases h1 : a = k ∧ b < k ∧ b < d
  · rw [if_pos h1]
    obtain ⟨rfl, hbk, _⟩ := h1
    rfl
  · rw [if_neg h1]
    by_cases h2 : b = k ∧ k ≤ a ∧ a < d
    · rw [if_pos h2]
      obtain ⟨rfl, hba2, _⟩ := h2
      exact dotZ_comm n _ _
    · rw [if_neg h2]
      have hak : a ≠ k := by
        intro hak
        subst hak
        rcases Nat.lt_or_ge b a with hb | hb
        · exact h1 ⟨rfl, hb, hbd⟩
        · exact h2 ⟨by omega, le_refl a, ha⟩
      have hbk : b ≠ k := by
        intro hbk
        subst hbk
        exact h2 ⟨rfl, hba, ha⟩
      rw [h a ha b hba]
      rw [show (passStep k d n i st).basis = rowSubOp st.basis k i ((fract_round (st.mu k i)).2) from rfl] at *
      rw [rowSubOp_ne _ _ _ _ hak, rowSubOp_ne _ _ _ _ hbk]

theorem passDown_r (k d n : ℕ) : ∀ (m : ℕ) (st : St), (passDown k d n m st).r = st.r := by
  intro m
  induction m with
  | zero => intro st; rfl
  | succ m ih => intro st; rw [passDown, ih, passStep_r]

theorem passDown_basis_ne (k d n : ℕ) : ∀ (m : ℕ) (st : St) {a : ℕ}, a ≠ k →
    (passDown k d n m st).basis a = st.basis a := by
  intro m
  induction m with
  | zero => intro st a _; rfl
  | succ m ih => intro st a ha; rw [passDown, ih _ ha, passStep_basis_ne _ _ _ _ _ ha]

theorem passDown_mu_ne (k d n : ℕ) : ∀ (m : ℕ) (st : St) {a : ℕ} (b : ℕ), a ≠ k →
    (passDown k d n m st).mu a b = st.mu a b := by
  intro m
  induction m with
  | zero => intro st a b _; rfl
  | succ m ih => intro st a b ha; rw [passDown, ih _ _ ha, passStep_mu_ne _ _ _ _ _ _ ha]

theorem passDown_gram_ne (k d n : ℕ) : ∀ (m : ℕ) (st : St) {a b : ℕ}, a ≠ k → b ≠ k →
    (passDown k d n m st).gram a b = st.gram a b := by
  intro m
  induction m with
  | zero => intro st a b _ _; rfl
  | succ m ih =>
    intro st a b ha hb
    rw [passDown, ih _ ha hb, passStep_gram_ne _ _ _ _ _ ha hb]

theorem passDown_gram_coh {k d n : ℕ} (hk : k < d) : ∀ (m : ℕ) (st : St),
    (∀ a < d, ∀ b ≤ a, st.gram a b = dotZ n (st.basis a) (st.basis b)) →
    ∀ a < d, ∀ b ≤ a, (passDown k d n m st).gram a b =
      dotZ n ((passDown k d n m st).basis a) ((passDown k d n m st).basis b) := by
  intro m
  induction m with
  | zero => intro st h; exact h
  | succ m ih =>
    intro st h
    rw [passDown]
    exact ih _ (passStep_gram_coh hk h)

/-! ## Contract of `size_reduce` on normal return -/

theorem size_reduce_ok_spec {eta : ℚ} {d n k : ℕ} (hk : k < d) :
    ∀ {fuel : ℕ} {st st1 : St},
      (∀ a < d, ∀ b ≤ a, st.gram a b = dotZ n (st.basis a) (st.basis b)) →
      size_reduce eta d n k fuel st = Out.ok st1 →
      (∀ a b, a ≠ k → st1.r a b = st.r a b ∧ st1.mu a b = st.mu a b) ∧
      (∀ a, a ≠ k → st1.basis a = st.basis a) ∧
      (∀ a b, a ≠ k → b ≠ k → st1.gram a b = st.gram a b) ∧
      (∀ a < d, ∀ b ≤ a, st1.gram a b = dotZ n (st1.basis a) (st1.basis b)) ∧
      (∀ j ≤ k, st1.r k j =
          (st1.gram k j : ℚ) - ∑ t ∈ Finset.range j, st1.mu j t * st1.r k t) ∧
      (∀ j ≤ k, st1.mu k j = st1.r k j / st1.r j j ∧ st1.r j j ≠ 0) ∧
      (∀ j < k, st1.mu k j ≤ eta) := by
  intro fuel
  induction fuel with
  | zero => intro st st1 _ h; simp [size_reduce] at h
  | succ fuel ih =>
    intro st st1 hgram h
    rw [size_reduce] at h
    rcases hm : rowRef k (k + 1) st with e | st2 <;> rw [hm] at h
    · simp at h
    · rw [liftE_ok] at h
      obtain ⟨hrne, hmune, hhigh, hrec, hdiv⟩ := rowRef_ok_spec (le_refl (k + 1)) hm
      have hfb := rowRef_ok_fields hm
      split at h
      case isTrue hcheck =>
        have hgram2 : ∀ a < d, ∀ b ≤ a, st2.gram a b = dotZ n (st2.basis a) (st2.basis b) := by
          intro a ha b hb
          rw [hfb.1, hfb.2]
          exact hgram a ha b hb
        have hgram3 := passDown_gram_coh hk k st2 hgram2
        obtain ⟨c1, c2, c3, c4, c5, c6, c7⟩ := ih hgram3 h
        refine ⟨?_, ?_, ?_, c4, c5, c6, c7⟩
        · intro a b ha
          obtain ⟨e1, e2⟩ := c1 a b ha
          constructor
          · rw [e1, passDown_r]
            exact hrne a b ha
          · rw [e2, passDown_mu_ne k d n k st2 b ha]
            exact hmune a b ha
        · intro a ha
          rw [c2 a ha, passDown_basis_ne k d n k st2 ha, hfb.1]
        · intro a b ha hb
          rw [c3 a b ha hb, passDown_gram_ne k d n k st2 ha hb, hfb.2]
      case isFalse hcheck =>
        obtain rfl : st2 = st1 := by simpa using h
        push_neg at hcheck
        refine ⟨fun a b ha => ⟨hrne a b ha, hmune a b ha⟩,
          fun a _ => by rw [hfb.1], fun a b _ _ => by rw [hfb.2], ?_, ?_, ?_, ?_⟩
        · intro a ha b hb
          rw [hfb.1, hfb.2]
          exact hgram a ha b hb
        · intro j hj
          rw [hfb.2]
          exact hrec j (by omega)
        · intro j hj
          exact hdiv j (by omega)
        · intro j hj
          exact hcheck j (Finset.mem_range.mpr hj)

/-! ## Contract of the swap refresh, and uniqueness of the recurrence -/

theorem swapRows_ne (B : ℕ → ℕ → ℤ) (x y : ℕ) {a : ℕ} (h1 : a ≠ x) (h2 : a ≠ y) :
    swapRows B x y a = B a := by
  simp [swapRows, h1, h2]

theorem swapRef_ok_spec : ∀ {m : ℕ} {st st1 : St},
    swapRef m st = Except.ok st1 →
    st1.basis = st.basis ∧ st1.gram = st.gram ∧
    (∀ a b, m ≤ a → st1.r a b = st.r a b ∧ st1.mu a b = st.mu a b) ∧
    (∀ i < m, ∀ j ≤ i, st1.r i j =
        (st.gram i j : ℚ) - ∑ t ∈ Finset.range j, st1.mu j t * st1.r i t) ∧
    (∀ i < m, ∀ j ≤ i, st1.mu i j = st1.r i j / st1.r j j ∧ st1.r j j ≠ 0) := by
  intro m
  induction m with
  | zero =>
    intro st st1 h
    obtain rfl : st = st1 := by simpa [swapRef] using h
    exact ⟨rfl, rfl, fun _ _ _ => ⟨rfl, rfl⟩,
      fun i hi => absurd hi (by omega), fun i hi => absurd hi (by omega)⟩
  | succ m ih =>
    intro st st1 h
    rw [swapRef] at h
    rcases hmm : swapRef m st with e | st2 <;> rw [hmm] at h
    · simp at h
    · rw [andThenE_ok] at h
      obtain ⟨ib, ig, ihigh, irec, idiv⟩ := ih hmm
      obtain ⟨hrne, hmune, hhigh, hrec, hdiv⟩ := rowRef_ok_spec (le_refl (m + 1)) h
      have hfb := rowRef_ok_fields h
      refine ⟨hfb.1.trans ib, hfb.2.trans ig, ?_, ?_, ?_⟩
      · intro a b ha
        have ham : a ≠ m := by omega
        exact ⟨(hrne a b ham).trans (ihigh a b (by omega)).1,
          (hmune a b ham).trans (ihigh a b (by omega)).2⟩
      · intro i hi j hji
        rcases Nat.lt_succ_iff_lt_or_eq.mp hi with hi2 | rfl
        · have him : i ≠ m := by omega
          rw [hrne i j him, irec i hi2 j hji]
          congr 1
          apply Finset.sum_congr rfl
          intro t ht
          simp only [Finset.mem_range] at ht
          have hjm : j ≠ m := by omega
          rw [hmune j t hjm, hrne i t him]
        · have e := hrec j (by omega)
          rw [e, ig]
      · intro i hi j hji
        rcases Nat.lt_succ_iff_lt_or_eq.mp hi with hi2 | rfl
        · have him : i ≠ m := by omega
          have hjm : j ≠ m := by omega
          obtain ⟨e1, e2⟩ := idiv i hi2 j hji
          refine ⟨?_, ?_⟩
          · rw [hmune i j him, hrne i j him, hrne j j hjm, e1]
          · rw [hrne j j hjm]
            exact e2
        · exact hdiv j (by omega)

theorem swapGramUpdate_coh {k d n : ℕ} {st2 : St} (hk : k < d) (hk1 : 1 ≤ k)
    (h : ∀ a < d, ∀ b ≤ a, st2.gram a b = dotZ n (st2.basis a) (st2.basis b)) :
    ∀ a < d, ∀ b ≤ a,
      (swapGramUpdate k d n { st2 with basis := swapRows st2.basis k (k - 1) }).gram a b =
        dotZ n (swapRows st2.basis k (k - 1) a) (swapRows st2.basis k (k - 1) b) := by
  intro a ha b hba
  have hbd : b < d := by omega
  show (if (b = k ∨ b = k - 1) ∧ k ≤ a ∧ a < d then _ else _) = _
  by_cases h1 : (b = k ∨ b = k - 1) ∧ k ≤ a ∧ a < d
  · rw [if_pos h1]
    exact dotZ_comm n _ _
  · rw [if_neg h1]
    by_cases h2 : (a = k ∨ a = k - 1) ∧ b < k ∧ b < d
    · rw [if_pos h2]
    · rw [if_neg h2]
      have hout : a ≠ k ∧ a ≠ k - 1 ∧ b ≠ k ∧ b ≠ k - 1 := by
        by_cases hak : a = k
        · subst hak
          rcases Nat.lt_or_ge b a with hb | hb
          · exact absurd ⟨Or.inl rfl, hb, hbd⟩ h2
          · exact absurd ⟨Or.inl (by omega), le_refl a, ha⟩ h1
        · by_cases hak1 : a = k - 1
          · subst hak1
            exact absurd ⟨Or.inr rfl, by omega, hbd⟩ h2
          · by_cases hbk : b = k
            · subst hbk
              exact absurd ⟨Or.inl rfl, hba, ha⟩ h1
            · by_cases hbk1 : b = k - 1
              · subst hbk1
                exact absurd ⟨Or.inr rfl, by omega, ha⟩ h1
              · exact ⟨hak, hak1, hbk, hbk1⟩
      obtain ⟨e1, e2, e3, e4⟩ := hout
      rw [swapRows_ne _ _ _ e1 e2, swapRows_ne _ _ _ e3 e4]
      exact h a ha b hba

theorem rec_unique (g1 g2 r1 mu1 r2 mu2 : ℕ → ℕ → ℚ) (M : ℕ)
    (hg : ∀ i ≤ M, ∀ j ≤ i, g1 i j = g2 i j)
    (h1r : ∀ i ≤ M, ∀ j ≤ i, r1 i j = g1 i j - ∑ t ∈ Finset.range j, mu1 j t * r1 i t)
    (h1mu : ∀ i ≤ M, ∀ j < i, mu1 i j = r1 i j / r1 j j)
    (h2r : ∀ i ≤ M, ∀ j ≤ i, r2 i j = g2 i j - ∑ t ∈ Finset.range j, mu2 j t * r2 i t)
    (h2mu : ∀ i ≤ M, ∀ j < i, mu2 i j = r2 i j / r2 j j) :
    (∀ j i, i ≤ M → j ≤ i → r1 i j = r2 i j) ∧
    (∀ i ≤ M, ∀ j < i, mu1 i j = mu2 i j) := by
  have P : ∀ j, (∀ t, t < j → ∀ i, i ≤ M → t ≤ i → r1 i t = r2 i t) →
      ∀ i, i ≤ M → j ≤ i → r1 i j = r2 i j := by
    intro j IH i hiM hji
    rw [h1r i hiM j hji, h2r i hiM j hji, hg i hiM j hji]
    congr 1
    apply Finset.sum_congr rfl
    intro t ht
    simp only [Finset.mem_range] at ht
    have hjM : j ≤ M := le_trans hji hiM
    have e1 : r1 i t = r2 i t := IH t ht i hiM (by omega)
    have e2 : r1 j t = r2 j t := IH t ht j hjM (by omega)
    have e3 : r1 t t = r2 t t := IH t ht t (by omega) (le_refl t)
    rw [h1mu j hjM t ht, h2mu j hjM t ht, e1, e2, e3]
  have Pall : ∀ j i, i ≤ M → j ≤ i → r1 i j = r2 i j := by
    intro j
    induction j using Nat.strong_induction_on with
    | _ j IH => exact P j fun t ht => IH t ht
  refine ⟨Pall, fun i hiM j hji => ?_⟩
  rw [h1mu i hiM j hji, h2mu i hiM j hji, Pall j i hiM (by omega),
    Pall j j (by omega) (le_refl j)]

/-! ## The main loop invariant -/

/-- Invariant of the main loop of `lattice_reduce` at loop head with
index `k`: the Gram matrix reflects the current basis, the `mu` and `r`
rows below `k` satisfy the defining recurrences of spec section 3, the
diagonal entries below `k` are nonzero (except before the first
iteration), every processed row is one-sidedly size-reduced against the
relaxed threshold, and every processed pair satisfies the relaxed
Lovasz condition. -/
structure Inv (eta_m delta_p : ℚ) (d n k : ℕ) (st : St) : Prop where
  k1 : 1 ≤ k
  kd : k ≤ d
  gram_coh : ∀ a < d, ∀ b ≤ a, st.gram a b = dotZ n (st.basis a) (st.basis b)
  r_coh : ∀ i < k, ∀ j ≤ i, st.r i j =
      (st.gram i j : ℚ) - ∑ t ∈ Finset.range j, st.mu j t * st.r i t
  mu_coh : ∀ i < k, ∀ j < i, st.mu i j = st.r i j / st.r j j
  diag : k = 1 ∨ ∀ j < k, st.r j j ≠ 0
  sred : ∀ i < k, ∀ j < i, st.mu i j ≤ eta_m
  lovasz : ∀ i, 1 ≤ i → i < k → delta_p * st.r (i - 1) (i - 1) <
      st.r i i + st.mu i (i - 1) * st.mu i (i - 1) * st.r (i - 1) (i - 1)

theorem inv_advance {eta_m delta_p : ℚ} {d n k : ℕ} {st st2 : St}
    (inv : Inv eta_m delta_p d n k st) (hk : k < d)
    (c1 : ∀ a b, a ≠ k → st2.r a b = st.r a b ∧ st2.mu a b = st.mu a b)
    (c4 : ∀ a < d, ∀ b ≤ a, st2.gram a b = dotZ n (st2.basis a) (st2.basis b))
    (c3 : ∀ a b, a ≠ k → b ≠ k → st2.gram a b = st.gram a b)
    (c5 : ∀ j ≤ k, st2.r k j =
        (st2.gram k j : ℚ) - ∑ t ∈ Finset.range j, st2.mu j t * st2.r k t)
    (c6 : ∀ j ≤ k, st2.mu k j = st2.r k j / st2.r j j ∧ st2.r j j ≠ 0)
    (c7 : ∀ j < k, st2.mu k j ≤ eta_m)
    (hlov : deltaCriterion delta_p st2 k < scalarCriterion st2 k) :
    Inv eta_m delta_p d n (k + 1) st2 where
  k1 := by omega
  kd := by omega
  gram_coh := c4
  r_coh := by
    intro i hi j hji
    rcases Nat.lt_succ_iff_lt_or_eq.mp hi with hi2 | rfl
    · have him : i ≠ k := by omega
      have hjm : j ≠ k := by omega
      rw [(c1 i j him).1, c3 i j him hjm, inv.r_coh i hi2 j hji]
      congr 1
      apply Finset.sum_congr rfl
      intro t ht
      simp only [Finset.mem_range] at ht
      rw [(c1 j t hjm).2, (c1 i t him).1]
    · exact c5 j hji
  mu_coh := by
    intro i hi j hj
    rcases Nat.lt_succ_iff_lt_or_eq.mp hi with hi2 | rfl
    · have him : i ≠ k := by omega
      have hjm : j ≠ k := by omega
      rw [(c1 i j him).2, (c1 i j him).1, (c1 j j hjm).1]
      exact inv.mu_coh i hi2 j hj
    · exact (c6 j (by omega)).1
  diag := Or.inr (by
    intro j hj
    exact (c6 j (by omega)).2)
  sred := by
    intro i hi j hj
    rcases Nat.lt_succ_iff_lt_or_eq.mp hi with hi2 | rfl
    · have him : i ≠ k := by omega
      rw [(c1 i j him).2]
      exact inv.sred i hi2 j hj
    · exact c7 j hj
  lovasz := by
    intro i h1 hi
    rcases Nat.lt_succ_iff_lt_or_eq.mp hi with hi2 | rfl
    · have him : i ≠ k := by omega
      have him1 : i - 1 ≠ k := by omega
      rw [(c1 i i him).1, (c1 (i - 1) (i - 1) him1).1, (c1 i (i - 1) him).2]
      exact inv.lovasz i h1 hi2
    · unfold deltaCriterion scalarCriterion at hlov
      exact hlov

theorem inv_swap {eta_m delta_p : ℚ} {d n k : ℕ} {st st2 st3 : St}
    (inv : Inv eta_m delta_p d n k st) (hk : k < d)
    (c1 : ∀ a b, a ≠ k → st2.r a b = st.r a b ∧ st2.mu a b = st.mu a b)
    (c3 : ∀ a b, a ≠ k → b ≠ k → st2.gram a b = st.gram a b)
    (c4 : ∀ a < d, ∀ b ≤ a, st2.gram a b = dotZ n (st2.basis a) (st2.basis b))
    (hs : swapRef (k + 1) (swapGramUpdate k d n
        { st2 with basis := swapRows st2.basis k (k - 1) }) = Except.ok st3) :
    Inv eta_m delta_p d n (max 1 (k - 1)) st3 := by
  obtain ⟨sb, sg, shigh, srec, sdiv⟩ := swapRef_ok_spec hs
  have hgram3 : ∀ a < d, ∀ b ≤ a, st3.gram a b = dotZ n (st3.basis a) (st3.basis b) := by
    intro a ha b hb
    rw [sg, sb]
    exact swapGramUpdate_coh hk inv.k1 c4 a ha b hb
  have hmax_le_k : max 1 (k - 1) ≤ k := max_le inv.k1 (by omega)
  have hmax_cases : max 1 (k - 1) = 1 ∨ (2 ≤ k ∧ max 1 (k - 1) = k - 1) := by
    rcases Nat.lt_or_ge k 2 with h2 | h2
    · left
      have hle : k - 1 ≤ 1 := by omega
      rw [max_eq_left hle]
    · right
      exact ⟨h2, max_eq_right (by omega)⟩
  have hval : 2 ≤ k → ∀ j i, i ≤ k - 2 → j ≤ i → st.r i j = st3.r i j := by
    intro hk2 j i hi hji
    have hU := rec_unique (fun i j => (st.gram i j : ℚ))
      (fun i j => ((swapGramUpdate k d n
        { st2 with basis := swapRows st2.basis k (k - 1) }).gram i j : ℚ))
      st.r st.mu st3.r st3.mu (k - 2)
      ?_ ?_ ?_ ?_ ?_
    · exact hU.1 j i hi hji
    · intro i hi j hji
      have hik : i ≠ k := by omega
      have hjk : j ≠ k := by omega
      have e1 : (swapGramUpdate k d n
          { st2 with basis := swapRows st2.basis k (k - 1) }).gram i j = st2.gram i j := by
        show (if (j = k ∨ j = k - 1) ∧ k ≤ i ∧ i < d then _ else _) = _
        rw [if_neg (by omega), if_neg (by omega)]
      show (st.gram i j : ℚ) = ((swapGramUpdate k d n
          { st2 with basis := swapRows st2.basis k (k - 1) }).gram i j : ℚ)
      rw [e1, c3 i j hik hjk]
    · intro i hi j hji
      exact inv.r_coh i (by omega) j hji
    · intro i hi j hji
      exact inv.mu_coh i (by omega) j hji
    · intro i hi j hji
      exact srec i (by omega) j hji
    · intro i hi j hji
      exact (sdiv i (by omega) j (by omega)).1
  have hmuval : 2 ≤ k → ∀ i, i ≤ k - 2 → ∀ j < i, st.mu i j = st3.mu i j := by
    intro hk2 i hi j hji
    rw [inv.mu_coh i (by omega) j hji, (sdiv i (by omega) j (by omega)).1,
      hval hk2 j i hi (by omega), hval hk2 j j (by omega) (le_refl j)]
  refine ⟨le_max_left 1 (k - 1), le_trans hmax_le_k (by omega), hgram3, ?_, ?_,
    Or.inr ?_, ?_, ?_⟩
  · intro i hi j hji
    rw [sg]
    exact srec i (by omega) j hji
  · intro i hi j hji
    exact (sdiv i (by omega) j (by omega)).1
  · intro j hj
    have hjk : j < k + 1 := by omega
    exact (sdiv j hjk j (le_refl j)).2
  · intro i hi j hji
    rcases hmax_cases with hc | ⟨hk2, hc⟩
    · rw [hc] at hi
      omega
    · rw [hc] at hi
      rw [← hmuval hk2 i (by omega) j hji]
      exact inv.sred i (by omega) j hji
  · intro i h1 hi
    rcases hmax_cases with hc | ⟨hk2, hc⟩
    · rw [hc] at hi
      omega
    · rw [hc] at hi
      rw [← hval hk2 i i (by omega) (le_refl i),
        ← hval hk2 (i - 1) (i - 1) (by omega) (le_refl (i - 1)),
        ← hmuval hk2 i (by omega) (i - 1) (by omega)]
      exact inv.lovasz i h1 (by omega)

theorem reduceLoop_ok_inv {eta_m delta_p : ℚ} {d n : ℕ} :
    ∀ {fuel k : ℕ} {st st1 : St}, Inv eta_m delta_p d n k st →
      reduceLoop eta_m delta_p d n fuel k st = Out.ok st1 →
      Inv eta_m delta_p d n d st1 := by
  intro fuel
  induction fuel with
  | zero => intro k st st1 _ h; simp [reduceLoop] at h
  | succ fuel ih =>
    intro k st st1 inv h
    rw [reduceLoop] at h
    split at h
    case isTrue hkd =>
      rcases hm : size_reduce eta_m d n k (fuel + 1) st with _ | e | st2 <;> rw [hm] at h
      · simp at h
      · simp at h
      · rw [bindOut_ok] at h
        obtain ⟨c1, c2, c3, c4, c5, c6, c7⟩ := size_reduce_ok_spec hkd inv.gram_coh hm
        split at h
        case isTrue hlov => exact ih (inv_advance inv hkd c1 c4 c3 c5 c6 c7 hlov) h
        case isFalse hlov =>
          rcases hs : swapRef (k + 1) (swapGramUpdate k d n
              { st2 with basis := swapRows st2.basis k (k - 1) }) with e | st3 <;>
            rw [hs] at h
          · simp at h
          · rw [liftE_ok] at h
            exact ih (inv_swap inv hkd c1 c3 c4 hs) h
    case isFalse hkd =>
      obtain rfl : st = st1 := by simpa using h
      have hked : k = d := by
        have := inv.kd
        omega
      exact hked ▸ inv

theorem initSt_inv (eta_m delta_p : ℚ) (d n : ℕ) (B : ℕ → ℕ → ℤ) (hd : 1 ≤ d) :
    Inv eta_m delta_p d n 1 (initSt d n B) where
  k1 := le_refl 1
  kd := hd
  gram_coh := by
    intro a ha b hb
    show (if a < d ∧ b ≤ a then dotZ n (B a) (B b) else 0) = _
    rw [if_pos ⟨ha, hb⟩]
    rfl
  r_coh := by
    intro i hi j hj
    have hi0 : i = 0 := by omega
    have hj0 : j = 0 := by omega
    subst hi0; subst hj0
    show setQ (fun _ _ => 0) 0 0 _ 0 0 = _
    rw [setQ_same, Finset.range_zero, Finset.sum_empty, sub_zero]
    rfl
  mu_coh := by intro i hi j hj; omega
  diag := Or.inl rfl
  sred := by intro i hi j hj; omega
  lovasz := by intro i h1 hi; omega

/-! ## The spec-level recurrence and coherence at exit -/

theorem colTab_stable (g : ℕ → ℕ → ℚ) : ∀ (m c : ℕ), c < m → ∀ i,
    colTab g m c i = specR g i c := by
  intro m
  induction m with
  | zero => intro c hc; omega
  | succ m ih =>
    intro c hc i
    rcases Nat.lt_succ_iff_lt_or_eq.mp hc with hc2 | rfl
    · show (if c = m then _ else colTab g m c i) = _
      rw [if_neg (by omega), ih c hc2 i]
    · rfl

theorem specR_rec (g : ℕ → ℕ → ℚ) (i j : ℕ) :
    specR g i j = g i j - ∑ t ∈ Finset.range j, specMu g j t * specR g i t := by
  show (if j = j then g i j - ∑ t ∈ Finset.range j,
      (colTab g j t j / colTab g j t t) * colTab g j t i else colTab g j j i) = _
  rw [if_pos rfl]
  congr 1
  apply Finset.sum_congr rfl
  intro t ht
  simp only [Finset.mem_range] at ht
  rw [colTab_stable g j t ht j, colTab_stable g j t ht t, colTab_stable g j t ht i]
  rfl

theorem inv_specR {eta_m delta_p : ℚ} {d n : ℕ} {st : St}
    (inv : Inv eta_m delta_p d n d st) :
    (∀ i < d, ∀ j ≤ i, st.r i j = specR (gramQ n st.basis) i j) ∧
      (∀ i < d, ∀ j < i, st.mu i j = specMu (gramQ n st.basis) i j) := by
  have hd : 1 ≤ d := le_trans inv.k1 inv.kd
  have hU := rec_unique (fun i j => (st.gram i j : ℚ)) (gramQ n st.basis)
    st.r st.mu
    (fun i j => specR (gramQ n st.basis) i j)
    (fun i j => specMu (gramQ n st.basis) i j)
    (d - 1)
    ?_ ?_ ?_ ?_ ?_
  · exact ⟨fun i hi j hji => hU.1 j i (by omega) hji,
      fun i hi j hji => hU.2 i (by omega) j hji⟩
  · intro i hi j hji
    show (st.gram i j : ℚ) = gramQ n st.basis i j
    rw [inv.gram_coh i (by omega) j hji]
    rfl
  · intro i hi j hji
    exact inv.r_coh i (by omega) j hji
  · intro i hi j hji
    exact inv.mu_coh i (by omega) j hji
  · intro i hi j hji
    exact specR_rec (gramQ n st.basis) i j
  · intro i hi j hji
    rfl

theorem lattice_reduce_ok_exit {fuel d n : ℕ} {B B' : ℕ → ℕ → ℤ} {eta delta : ℚ}
    (h : lattice_reduce fuel d n B eta delta = Out.ok B') :
    paramsOk eta delta ∧ 1 ≤ d ∧
      ∃ st1 : St, st1.basis = B' ∧ Inv (etaMinus eta) (deltaPlus delta) d n d st1 := by
  obtain ⟨hp, hd, st1, hm, hb⟩ := lattice_reduce_ok h
  have hd1 : 1 ≤ d := by omega
  have hinv := reduceLoop_ok_inv
    (initSt_inv (etaMinus eta) (deltaPlus delta) d n B hd1) hm
  exact ⟨hp, hd1, st1, hb, hinv⟩

/-! ## Gram-Schmidt vectors: orthogonality and positivity -/

theorem iprod_comm (n : ℕ) (u v : ℕ → ℚ) : iprod n u v = iprod n v u :=
  Finset.sum_congr rfl fun j _ => mul_comm _ _

theorem iprod_sub_sum (n : ℕ) (u w : ℕ → ℚ) (m : ℕ) (c : ℕ → ℚ) (vv : ℕ → ℕ → ℚ) :
    iprod n u (fun j => w j - ∑ t ∈ Finset.range m, c t * vv t j) =
      iprod n u w - ∑ t ∈ Finset.range m, c t * iprod n u (vv t) := by
  unfold iprod
  have e1 : ∀ j, u j * (w j - ∑ t ∈ Finset.range m, c t * vv t j)
      = u j * w j - ∑ t ∈ Finset.range m, u j * (c t * vv t j) := by
    intro j
    rw [mul_sub, Finset.mul_sum]
  rw [Finset.sum_congr rfl fun j _ => e1 j, Finset.sum_sub_distrib]
  congr 1
  rw [Finset.sum_comm]
  apply Finset.sum_congr rfl
  intro t _
  rw [Finset.mul_sum]
  apply Finset.sum_congr rfl
  intro j _
  ring

theorem bsTab_stable (n : ℕ) (B : ℕ → ℕ → ℤ) : ∀ (m i : ℕ), i < m → ∀ j,
    bsTab n B m i j = bstar n B i j := by
  intro m
  induction m with
  | zero => intro i hi; omega
  | succ m ih =>
    intro i hi j
    rcases Nat.lt_succ_iff_lt_or_eq.mp hi with hi2 | rfl
    · show (if i = m then _ else bsTab n B m i j) = _
      rw [if_neg (by omega), ih i hi2 j]
    · rfl

theorem bstar_eq (n : ℕ) (B : ℕ → ℕ → ℤ) (i : ℕ) : bstar n B i =
    fun j => (B i j : ℚ) - ∑ t ∈ Finset.range i, specMu (gramQ n B) i t * bstar n B t j := by
  funext j
  show (if i = i then _ else bsTab n B i i j) = _
  rw [if_pos rfl]
  congr 1
  apply Finset.sum_congr rfl
  intro t ht
  simp only [Finset.mem_range] at ht
  rw [bsTab_stable n B i t ht j]

theorem gramQ_iprod (n : ℕ) (B : ℕ → ℕ → ℤ) (i j : ℕ) :
    gramQ n B i j = iprod n (fun a => (B i a : ℚ)) (fun a => (B j a : ℚ)) := by
  unfold gramQ dotZ iprod
  push_cast
  rfl

theorem iprod_bstar (n : ℕ) (B : ℕ → ℕ → ℤ) : ∀ (j i : ℕ),
    iprod n (fun a => (B i a : ℚ)) (bstar n B j) = specR (gramQ n B) i j := by
  intro j
  induction j using Nat.strong_induction_on with
  | _ j IH =>
    intro i
    rw [bstar_eq n B j, iprod_sub_sum, ← gramQ_iprod, specR_rec]
    congr 1
    apply Finset.sum_congr rfl
    intro t ht
    simp only [Finset.mem_range] at ht
    rw [IH t ht i]

theorem bstar_orth_norm (n : ℕ) (B : ℕ → ℕ → ℤ) : ∀ (i : ℕ),
    (∀ t < i, specR (gramQ n B) t t ≠ 0) →
    (∀ j < i, iprod n (bstar n B i) (bstar n B j) = 0) ∧
      iprod n (bstar n B i) (bstar n B i) = specR (gramQ n B) i i := by
  intro i
  induction i using Nat.strong_induction_on with
  | _ i IH =>
    intro hdiag
    have horth : ∀ j < i, iprod n (bstar n B i) (bstar n B j) = 0 := by
      intro j hj
      rw [iprod_comm, bstar_eq n B i, iprod_sub_sum]
      have hfirst : iprod n (bstar n B j) (fun a => (B i a : ℚ)) = specR (gramQ n B) i j := by
        rw [iprod_comm]
        exact iprod_bstar n B j i
      have hsum : ∑ t ∈ Finset.range i,
          specMu (gramQ n B) i t * iprod n (bstar n B j) (bstar n B t) =
            specMu (gramQ n B) i j * specR (gramQ n B) j j := by
        rw [Finset.sum_eq_single_of_mem j (Finset.mem_range.mpr hj)]
        · rw [(IH j hj fun t ht => hdiag t (by omega)).2]
        · intro t ht htj
          simp only [Finset.mem_range] at ht
          rcases Nat.lt_or_ge t j with htlt | htge
          · rw [(IH j hj fun s hs => hdiag s (by omega)).1 t htlt, mul_zero]
          · have htj2 : j < t := by omega
            rw [iprod_comm, (IH t ht fun s hs => hdiag s (by omega)).1 j htj2, mul_zero]
      rw [hfirst, hsum]
      unfold specMu
      rw [div_mul_cancel₀ _ (hdiag j hj)]
      ring
    have hnorm : iprod n (bstar n B i) (bstar n B i) = specR (gramQ n B) i i := by
      nth_rewrite 2 [bstar_eq n B i]
      rw [iprod_sub_sum]
      have hz : ∀ t ∈ Finset.range i,
          specMu (gramQ n B) i t * iprod n (bstar n B i) (bstar n B t) = 0 := by
        intro t ht
        simp only [Finset.mem_range] at ht
        rw [horth t ht, mul_zero]
      rw [Finset.sum_eq_zero hz, sub_zero, iprod_comm, iprod_bstar]
    exact ⟨horth, hnorm⟩

theorem iprod_self_nonneg (n : ℕ) (v : ℕ → ℚ) : 0 ≤ iprod n v v :=
  Finset.sum_nonneg fun j _ => mul_self_nonneg (v j)

theorem specR_diag_pos {n : ℕ} {B : ℕ → ℕ → ℤ} {i : ℕ}
    (hdiag : ∀ t ≤ i, specR (gramQ n B) t t ≠ 0) :
    0 < specR (gramQ n B) i i := by
  have h := (bstar_orth_norm n B i fun t ht => hdiag t (by omega)).2
  have hge : 0 ≤ specR (gramQ n B) i i := h ▸ iprod_self_nonneg n (bstar n B i)
  exact lt_of_le_of_ne hge (Ne.symm (hdiag i (le_refl i)))

/-- Claim C2: after a normal return of `lattice_reduce`, the Lovasz
condition holds for the resulting basis with the original `delta`:
`delta * r[i-1][i-1] <= r[i][i] + mu[i][i-1]^2 * r[i-1][i-1]` for every
`1 <= i < d`, where `r` and `mu` are the Gram-Schmidt data of the
returned basis (and `r[i][i]` the squared norm of the `i`-th
Gram-Schmidt vector). -/
theorem C2_lovasz_after_return (fuel d n : ℕ) (B B' : ℕ → ℕ → ℤ) (eta delta : ℚ)
    (h : lattice_reduce fuel d n B eta delta = Out.ok B') :
    ∀ i, 1 ≤ i → i < d →
      delta * specR (gramQ n B') (i - 1) (i - 1) ≤
        specR (gramQ n B') i i +
          specMu (gramQ n B') i (i - 1) * specMu (gramQ n B') i (i - 1) *
            specR (gramQ n B') (i - 1) (i - 1) := by
  obtain ⟨hp, hd1, st1, hb, hinv⟩ := lattice_reduce_ok_exit h
  intro i h1 hid
  subst hb
  have hdge2 : 2 ≤ d := by omega
  have hdiagAll : ∀ j < d, st1.r j j ≠ 0 := by
    rcases hinv.diag with hc | hc
    · omega
    · exact hc
  obtain ⟨hre, hmue⟩ := inv_specR hinv
  have hlov := hinv.lovasz i h1 hid
  have hpos : 0 < specR (gramQ n st1.basis) (i - 1) (i - 1) := by
    apply specR_diag_pos
    intro t ht
    rw [← hre t (by omega) t (le_refl t)]
    exact hdiagAll t (by omega)
  have hdp : delta < deltaPlus delta := by
    unfold deltaPlus
    have := hp.2.1
    linarith
  rw [hre i hid i (le_refl i), hre (i - 1) (by omega) (i - 1) (le_refl (i - 1)),
    hmue i hid (i - 1) (by omega)] at hlov
  have step := mul_lt_mul_of_pos_right hdp hpos
  linarith

/-- Concrete input for the C2 witness. -/
def c2wB : ℕ → ℕ → ℤ := mkB [[1, 0], [0, 1]]

/-- Output basis of the C2 witness run. -/
def c2wOut : ℕ → ℕ → ℤ := getOk (lattice_reduce 8 2 2 c2wB (51 / 100) (3 / 4)) (mkB [])

theorem C2_lovasz_witness :
    (3 : ℚ) / 4 * specR (gramQ 2 c2wOut) 0 0 ≤
      specR (gramQ 2 c2wOut) 1 1 +
        specMu (gramQ 2 c2wOut) 1 0 * specMu (gramQ 2 c2wOut) 1 0 *
          specR (gramQ 2 c2wOut) 0 0 :=
  C2_lovasz_after_return 8 2 2 c2wB c2wOut (51 / 100) (3 / 4)
    (by with_unfolding_all rfl) 1 (le_refl 1) (by omega)

/-! ## A second run over an already reduced basis advances straight through -/

theorem rowRef_run2 {d n : ℕ} {B' : ℕ → ℕ → ℤ} {row : ℕ} (hrow : row < d)
    (hD : ∀ j < d, specR (gramQ n B') j j ≠ 0) :
    ∀ {m : ℕ} {st : St}, m ≤ row + 1 →
      st.basis = B' →
      (∀ a < d, ∀ b ≤ a, st.gram a b = dotZ n (st.basis a) (st.basis b)) →
      (∀ i < row, ∀ j ≤ i, st.r i j = specR (gramQ n B') i j) →
      (∀ i < row, ∀ j < i, st.mu i j = specMu (gramQ n B') i j) →
      ∃ st1, rowRef row m st = Except.ok st1 ∧
        st1.basis = st.basis ∧ st1.gram = st.gram ∧
        (∀ a b, a ≠ row → st1.r a b = st.r a b ∧ st1.mu a b = st.mu a b) ∧
        (∀ b, m ≤ b → st1.r row b = st.r row b ∧ st1.mu row b = st.mu row b) ∧
        (∀ j < m, st1.r row j = specR (gramQ n B') row j ∧
          st1.mu row j = specMu (gramQ n B') row j) := by
  intro m
  induction m with
  | zero =>
    intro st _ _ _ _ _
    exact ⟨st, rfl, rfl, rfl, fun _ _ _ => ⟨rfl, rfl⟩, fun _ _ => ⟨rfl, rfl⟩,
      fun j hj => absurd hj (by omega)⟩
  | succ m ih =>
    intro st hm hbasis hgram hr hmu
    obtain ⟨st2, hst2, e_b, e_g, e_ne, e_high, e_spec⟩ := ih (by omega) hbasis hgram hr hmu
    have hmd : m < d := by omega
    -- the value written at column m is the spec value
    have hcolv : (st2.gram row m : ℚ) - ∑ t ∈ Finset.range m, st2.mu m t * st2.r row t =
        specR (gramQ n B') row m := by
      have hgrameq : (st2.gram row m : ℚ) = gramQ n B' row m := by
        rw [e_g, hgram row hrow m (by omega)]
        rw [hbasis]
        rfl
      rw [hgrameq, specR_rec]
      congr 1
      apply Finset.sum_congr rfl
      intro t ht
      simp only [Finset.mem_range] at ht
      have hrt : st2.r row t = specR (gramQ n B') row t := (e_spec t ht).1
      rcases Nat.lt_or_ge m row with hmr | hmr
      · have hmm : m ≠ row := by omega
        rw [(e_ne m t hmm).2, hmu m hmr t (by omega), hrt]
      · have hmr2 : m = row := by omega
        subst hmr2
        rw [(e_spec t ht).2, hrt]
    -- the divisor is nonzero
    have hdivm : setQ st2.r row m ((st2.gram row m : ℚ) -
        ∑ t ∈ Finset.range m, st2.mu m t * st2.r row t) m m ≠ 0 := by
      rcases Nat.lt_or_ge m row with hmr | hmr
      · rw [setQ_ne _ _ _ _ (Or.inl (by omega))]
        have : st2.r m m = specR (gramQ n B') m m := by
          rw [(e_ne m m (by omega)).1, hr m hmr m (le_refl m)]
        rw [this]
        exact hD m hmd
      · have hmr2 : m = row := by omega
        subst hmr2
        rw [setQ_same, hcolv]
        exact hD m hmd
    have hex : ∃ st3, colStep row m st2 = Except.ok st3 := by
      simp only [colStep]
      rw [if_neg hdivm]
      exact ⟨_, rfl⟩
    obtain ⟨st3, hcol⟩ := hex
    obtain ⟨f_b, f_g, f_r, f_mu, f_div⟩ := colStep_ok_spec hcol
    have hr3m : st3.r row m = specR (gramQ n B') row m := by
      rw [f_r, setQ_same, hcolv]
    have hr3diag : st3.r m m = specR (gramQ n B') m m := by
      rcases Nat.lt_or_ge m row with hmr | hmr
      · rw [f_r, setQ_ne _ _ _ _ (Or.inl (by omega)), (e_ne m m (by omega)).1,
          hr m hmr m (le_refl m)]
      · have hmr2 : m = row := by omega
        subst hmr2
        exact hr3m
    refine ⟨st3, ?_, f_b.trans e_b, f_g.trans e_g, ?_, ?_, ?_⟩
    · rw [rowRef, hst2, andThenE_ok, hcol]
    · intro a b ha
      rw [f_r, f_mu, setQ_ne _ _ _ _ (Or.inl ha), setQ_ne _ _ _ _ (Or.inl ha)]
      exact e_ne a b ha
    · intro b hb
      rw [f_r, f_mu, setQ_ne _ _ _ _ (Or.inr (by omega)),
        setQ_ne _ _ _ _ (Or.inr (by omega))]
      exact e_high b (by omega)
    · intro j hj
      rcases Nat.lt_succ_iff_lt_or_eq.mp hj with hj2 | rfl
      · rw [f_r, f_mu, setQ_ne _ _ _ _ (Or.inr (by omega)),
          setQ_ne _ _ _ _ (Or.inr (by omega))]
        exact e_spec j hj2
      · refine ⟨hr3m, ?_⟩
        rw [f_mu, setQ_same, hr3m, hr3diag]
        rfl

theorem size_reduce_run2 {eta_m : ℚ} {d n k : ℕ} {B' : ℕ → ℕ → ℤ} (hk : k < d)
    (hD : ∀ j < d, specR (gramQ n B') j j ≠ 0)
    (hS : ∀ j < k, specMu (gramQ n B') k j ≤ eta_m) :
    ∀ {st : St} {fuel : ℕ}, 1 ≤ fuel →
      st.basis = B' →
      (∀ a < d, ∀ b ≤ a, st.gram a b = dotZ n (st.basis a) (st.basis b)) →
      (∀ i < k, ∀ j ≤ i, st.r i j = specR (gramQ n B') i j) →
      (∀ i < k, ∀ j < i, st.mu i j = specMu (gramQ n B') i j) →
      ∃ st1, size_reduce eta_m d n k fuel st = Out.ok st1 ∧
        st1.basis = st.basis ∧ st1.gram = st.gram ∧
        (∀ a b, a ≠ k → st1.r a b = st.r a b ∧ st1.mu a b = st.mu a b) ∧
        (∀ j ≤ k, st1.r k j = specR (gramQ n B') k j ∧
          st1.mu k j = specMu (gramQ n B') k j) := by
  intro st fuel hfuel hbasis hgram hr hmu
  obtain ⟨f, rfl⟩ : ∃ f, fuel = f + 1 := ⟨fuel - 1, by omega⟩
  obtain ⟨st1, hst1, e_b, e_g, e_ne, _, e_spec⟩ :=
    rowRef_run2 hk hD (le_refl (k + 1)) hbasis hgram hr hmu
  have hcheck : ¬ ∃ j ∈ Finset.range k, eta_m < st1.mu k j := by
    push_neg
    intro j hj
    simp only [Finset.mem_range] at hj
    rw [(e_spec j (by omega)).2]
    exact hS j hj
  refine ⟨st1, ?_, e_b, e_g, e_ne, fun j hj => e_spec j (by omega)⟩
  rw [size_reduce, hst1, liftE_ok, if_neg hcheck]

theorem run2_loop {eta_m delta_p : ℚ} {d n : ℕ} {B' : ℕ → ℕ → ℤ}
    (hS : ∀ i < d, ∀ j < i, specMu (gramQ n B') i j ≤ eta_m)
    (hL : ∀ i, 1 ≤ i → i < d →
        delta_p * specR (gramQ n B') (i - 1) (i - 1) <
          specR (gramQ n B') i i + specMu (gramQ n B') i (i - 1) *
            specMu (gramQ n B') i (i - 1) * specR (gramQ n B') (i - 1) (i - 1))
    (hD : ∀ j < d, specR (gramQ n B') j j ≠ 0) :
    ∀ (cnt k : ℕ) (st : St), d - k = cnt → 1 ≤ k →
      st.basis = B' →
      (∀ a < d, ∀ b ≤ a, st.gram a b = dotZ n (st.basis a) (st.basis b)) →
      (∀ i < k, ∀ j ≤ i, st.r i j = specR (gramQ n B') i j) →
      (∀ i < k, ∀ j < i, st.mu i j = specMu (gramQ n B') i j) →
      ∀ fuel, cnt + 1 ≤ fuel →
        ∃ st', reduceLoop eta_m delta_p d n fuel k st = Out.ok st' ∧ st'.basis = B' := by
  intro cnt
  induction cnt with
  | zero =>
    intro k st hcnt hk1 hbasis _ _ _ fuel hfuel
    obtain ⟨f, rfl⟩ : ∃ f, fuel = f + 1 := ⟨fuel - 1, by omega⟩
    refine ⟨st, ?_, hbasis⟩
    rw [reduceLoop, if_neg (by omega)]
  | succ cnt ih =>
    intro k st hcnt hk1 hbasis hgram hr hmu fuel hfuel
    obtain ⟨f, rfl⟩ : ∃ f, fuel = f + 1 := ⟨fuel - 1, by omega⟩
    have hkd : k < d := by omega
    obtain ⟨st1, hst1, e_b, e_g, e_ne, e_spec⟩ :=
      size_reduce_run2 hkd hD (fun j hj => hS k hkd j hj) (by omega : 1 ≤ f + 1)
        hbasis hgram hr hmu
    have hcrit : deltaCriterion delta_p st1 k < scalarCriterion st1 k := by
      unfold deltaCriterion scalarCriterion
      have er1 : st1.r (k - 1) (k - 1) = specR (gramQ n B') (k - 1) (k - 1) := by
        rw [(e_ne (k - 1) (k - 1) (by omega)).1, hr (k - 1) (by omega) (k - 1) (le_refl _)]
      have er2 : st1.r k k = specR (gramQ n B') k k := (e_spec k (le_refl k)).1
      have er3 : st1.mu k (k - 1) = specMu (gramQ n B') k (k - 1) :=
        (e_spec (k - 1) (by omega)).2
      rw [er1, er2, er3]
      exact hL k hk1 hkd
    have hb1 : st1.basis = B' := e_b.trans hbasis
    have hgram1 : ∀ a < d, ∀ b ≤ a, st1.gram a b = dotZ n (st1.basis a) (st1.basis b) := by
      intro a ha b hb
      rw [e_g, e_b]
      exact hgram a ha b hb
    have hr1 : ∀ i < k + 1, ∀ j ≤ i, st1.r i j = specR (gramQ n B') i j := by
      intro i hi j hji
      rcases Nat.lt_succ_iff_lt_or_eq.mp hi with hi2 | rfl
      · rw [(e_ne i j (by omega)).1, hr i hi2 j hji]
      · exact (e_spec j hji).1
    have hmu1 : ∀ i < k + 1, ∀ j < i, st1.mu i j = specMu (gramQ n B') i j := by
      intro i hi j hji
      rcases Nat.lt_succ_iff_lt_or_eq.mp hi with hi2 | rfl
      · rw [(e_ne i j (by omega)).2, hmu i hi2 j hji]
      · exact (e_spec j (by omega)).2
    obtain ⟨st', hloop, hb'⟩ := ih (k + 1) st1 (by omega) (by omega) hb1 hgram1 hr1 hmu1
      f (by omega)
    refine ⟨st', ?_, hb'⟩
    rw [reduceLoop, if_pos hkd, hst1, bindOut_ok, if_pos hcrit, hloop]

/-- Claim C9: the reduction is idempotent.  If `lattice_reduce` returns
normally with basis `B'`, then running the reduction again on `B'`
(with sufficient fuel) returns normally with exactly the same rows. -/
theorem C9_idempotent (fuel d n : ℕ) (B B' : ℕ → ℕ → ℤ) (eta delta : ℚ)
    (h : lattice_reduce fuel d n B eta delta = Out.ok B') :
    ∀ fuel2, d + 1 ≤ fuel2 → lattice_reduce fuel2 d n B' eta delta = Out.ok B' := by
  obtain ⟨hp, hd1, st1, hb, hinv⟩ := lattice_reduce_ok_exit h
  obtain ⟨hre, hmue⟩ := inv_specR hinv
  subst hb
  intro fuel2 hf2
  rcases Nat.lt_or_ge d 2 with hd2 | hd2
  · have hd1' : d = 1 := by omega
    subst hd1'
    obtain ⟨f, rfl⟩ : ∃ f, fuel2 = f + 1 := ⟨fuel2 - 1, by omega⟩
    rw [lattice_reduce_eq (f + 1) 1 n st1.basis eta delta hp one_ne_zero, reduceLoop,
      if_neg (by omega)]
    exact rfl
  · have hdiagAll : ∀ j < d, st1.r j j ≠ 0 := by
      rcases hinv.diag with hc | hc
      · omega
      · exact hc
    have hS : ∀ i < d, ∀ j < i, specMu (gramQ n st1.basis) i j ≤ etaMinus eta := by
      intro i hi j hj
      rw [← hmue i hi j hj]
      exact hinv.sred i hi j hj
    have hL : ∀ i, 1 ≤ i → i < d →
        deltaPlus delta * specR (gramQ n st1.basis) (i - 1) (i - 1) <
          specR (gramQ n st1.basis) i i + specMu (gramQ n st1.basis) i (i - 1) *
            specMu (gramQ n st1.basis) i (i - 1) *
              specR (gramQ n st1.basis) (i - 1) (i - 1) := by
      intro i h1 hi
      have := hinv.lovasz i h1 hi
      rwa [hre i hi i (le_refl i), hre (i - 1) (by omega) (i - 1) (le_refl (i - 1)),
        hmue i hi (i - 1) (by omega)] at this
    have hD : ∀ j < d, specR (gramQ n st1.basis) j j ≠ 0 := by
      intro j hj
      rw [← hre j hj j (le_refl j)]
      exact hdiagAll j hj
    rw [lattice_reduce_eq fuel2 d n st1.basis eta delta hp (by omega)]
    have hinitr : ∀ i < 1, ∀ j ≤ i, (initSt d n st1.basis).r i j =
        specR (gramQ n st1.basis) i j := by
      intro i hi j hji
      have hi0 : i = 0 := by omega
      have hj0 : j = 0 := by omega
      subst hi0; subst hj0
      have h00 : (initSt d n st1.basis).r 0 0 = gramQ n st1.basis 0 0 := by
        show setQ (fun _ _ => 0) 0 0
          (((if 0 < d ∧ (0 : ℕ) ≤ 0 then dotZ n (st1.basis 0) (st1.basis 0) else 0) : ℤ) : ℚ)
          0 0 = _
        rw [setQ_same,
          if_pos (⟨by omega, le_refl 0⟩ : 0 < d ∧ (0 : ℕ) ≤ 0)]
        rfl
      rw [h00, specR_rec, Finset.range_zero, Finset.sum_empty, sub_zero]
    obtain ⟨st', hloop, hbasis'⟩ := run2_loop hS hL hD (d - 1) 1 (initSt d n st1.basis)
      (by omega) (le_refl 1) rfl
      (initSt_inv (etaMinus eta) (deltaPlus delta) d n st1.basis (by omega)).gram_coh
      hinitr (by intro i hi j hj; omega) fuel2 (by omega)
    rw [hloop]
    show Out.ok st'.basis = Out.ok st1.basis
    rw [hbasis']

/-! ## Independence of the rows from nonzero Gram-Schmidt norms -/

theorem iprod_add_sum (n : ℕ) (u w : ℕ → ℚ) (m : ℕ) (c : ℕ → ℚ) (vv : ℕ → ℕ → ℚ) :
    iprod n u (fun j => w j + ∑ t ∈ Finset.range m, c t * vv t j) =
      iprod n u w + ∑ t ∈ Finset.range m, c t * iprod n u (vv t) := by
  unfold iprod
  have e1 : ∀ j, u j * (w j + ∑ t ∈ Finset.range m, c t * vv t j)
      = u j * w j + ∑ t ∈ Finset.range m, u j * (c t * vv t j) := by
    intro j
    rw [mul_add, Finset.mul_sum]
  rw [Finset.sum_congr rfl fun j _ => e1 j, Finset.sum_add_distrib]
  congr 1
  rw [Finset.sum_comm]
  apply Finset.sum_congr rfl
  intro t _
  rw [Finset.mul_sum]
  apply Finset.sum_congr rfl
  intro j _
  ring

theorem iprod_sum_left (n m : ℕ) (c : ℕ → ℚ) (uu : ℕ → ℕ → ℚ) (v : ℕ → ℚ) :
    iprod n (fun j => ∑ t ∈ Finset.range m, c t * uu t j) v =
      ∑ t ∈ Finset.range m, c t * iprod n (uu t) v := by
  unfold iprod
  have e1 : ∀ j, (∑ t ∈ Finset.range m, c t * uu t j) * v j
      = ∑ t ∈ Finset.range m, c t * (uu t j * v j) := by
    intro j
    rw [Finset.sum_mul]
    exact Finset.sum_congr rfl fun t _ => by ring
  rw [Finset.sum_congr rfl fun j _ => e1 j, Finset.sum_comm]
  exact Finset.sum_congr rfl fun t _ => (Finset.mul_sum _ _ _).symm

theorem specR_upper_zero {n : ℕ} {B : ℕ → ℕ → ℤ} {i : ℕ}
    (hdiag : ∀ t < i, specR (gramQ n B) t t ≠ 0) :
    ∀ t < i, specR (gramQ n B) t i = 0 := by
  intro t hti
  have hBt : (fun a => (B t a : ℚ)) = fun a => bstar n B t a +
      ∑ s ∈ Finset.range t, specMu (gramQ n B) t s * bstar n B s a := by
    funext a
    have h : bstar n B t a = (B t a : ℚ) -
        ∑ s ∈ Finset.range t, specMu (gramQ n B) t s * bstar n B s a :=
      congrFun (bstar_eq n B t) a
    linarith
  rw [← iprod_bstar n B i t, iprod_comm, hBt, iprod_add_sum]
  have h1 : iprod n (bstar n B i) (bstar n B t) = 0 :=
    (bstar_orth_norm n B i hdiag).1 t hti
  have h2 : ∀ s ∈ Finset.range t,
      specMu (gramQ n B) t s * iprod n (bstar n B i) (bstar n B s) = 0 := by
    intro s hs
    simp only [Finset.mem_range] at hs
    rw [(bstar_orth_norm n B i hdiag).1 s (by omega), mul_zero]
  rw [h1, Finset.sum_eq_zero h2, add_zero]

theorem specR_indep {d n : ℕ} {B : ℕ → ℕ → ℤ}
    (hdiag : ∀ j < d, specR (gramQ n B) j j ≠ 0) :
    LinIndepRowsQ d n B := by
  intro c hc
  have key : ∀ i < d, (∀ t, i < t → t < d → c t = 0) → c i = 0 := by
    intro i hi habove
    have hcomb : iprod n (fun j => ∑ t ∈ Finset.range d, c t * (B t j : ℚ))
        (bstar n B i) = 0 := by
      unfold iprod
      apply Finset.sum_eq_zero
      intro j hj
      simp only [Finset.mem_range] at hj
      show (∑ t ∈ Finset.range d, c t * (B t j : ℚ)) * bstar n B i j = 0
      rw [hc j hj, zero_mul]
    rw [iprod_sum_left] at hcomb
    have hterm : ∀ t ∈ Finset.range d, t ≠ i →
        c t * iprod n (fun a => (B t a : ℚ)) (bstar n B i) = 0 := by
      intro t ht hti
      simp only [Finset.mem_range] at ht
      rcases Nat.lt_or_ge t i with hlt | hge
      · rw [iprod_bstar n B i t,
          specR_upper_zero (fun s hs => hdiag s (by omega)) t hlt, mul_zero]
      · rw [habove t (by omega) ht, zero_mul]
    rw [Finset.sum_eq_single_of_mem i (Finset.mem_range.mpr hi) hterm,
      iprod_bstar n B i i] at hcomb
    exact (mul_eq_zero.mp hcomb).resolve_right (hdiag i hi)
  have hdown : ∀ m, ∀ i < d, d - i ≤ m → c i = 0 := by
    intro m
    induction m with
    | zero => intro i hi hm; omega
    | succ m ih =>
      intro i hi _
      exact key i hi fun t hti htd => ih t htd (by omega)
  intro i hi
  exact hdown d i hi (by omega)

/-! ## Transfer of independence along span equality -/

theorem linIndepRows_iff {d n : ℕ} {B : ℕ → ℕ → ℤ} :
    LinIndepRowsQ d n B ↔
      LinearIndependent ℚ (fun i : Fin d => fun j : Fin n => (B i.1 j.1 : ℚ)) := by
  classical
  rw [Fintype.linearIndependent_iff]
  constructor
  · intro h g hg i
    have hc : ∀ j < n, ∑ t ∈ Finset.range d,
        (fun t => if ht : t < d then g ⟨t, ht⟩ else 0) t * (B t j : ℚ) = 0 := by
      intro j hj
      have hgj := congrFun hg (⟨j, hj⟩ : Fin n)
      rw [Finset.sum_apply, Pi.zero_apply] at hgj
      rw [← Fin.sum_univ_eq_sum_range
        (fun t => (if ht : t < d then g ⟨t, ht⟩ else 0) * (B t j : ℚ)) d, ← hgj]
      apply Finset.sum_congr rfl
      intro t _
      simp only [Pi.smul_apply, smul_eq_mul, dif_pos t.2, Fin.eta]
    have hthis := h _ hc i.1 i.2
    rwa [dif_pos i.2, Fin.eta] at hthis
  · intro h c hc i hi
    have hz : (∑ t : Fin d, c t.1 • fun j : Fin n => (B t.1 j.1 : ℚ)) = 0 := by
      funext j
      rw [Finset.sum_apply, Pi.zero_apply]
      have hcj := hc j.1 j.2
      rw [← Fin.sum_univ_eq_sum_range (fun t => c t * (B t j.1 : ℚ)) d] at hcj
      rw [← hcj]
      apply Finset.sum_congr rfl
      intro t _
      simp only [Pi.smul_apply, smul_eq_mul]
    exact h (fun t => c t.1) hz ⟨i, hi⟩

theorem inSpanZ_row {d n : ℕ} (B : ℕ → ℕ → ℤ) {t : ℕ} (ht : t < d) :
    inSpanZ d n B (B t) := by
  refine ⟨fun i => if i = t then 1 else 0, fun j hj => ?_⟩
  rw [Finset.sum_eq_single_of_mem t (Finset.mem_range.mpr ht)]
  · simp
  · intro b _ hbt
    simp [hbt]

theorem linIndep_transfer {d n : ℕ} {B B' : ℕ → ℕ → ℤ}
    (hspan : ∀ v, inSpanZ d n B v ↔ inSpanZ d n B' v)
    (hind : LinIndepRowsQ d n B') : LinIndepRowsQ d n B := by
  classical
  set vq : Fin d → (Fin n → ℚ) := fun i => fun j => (B i.1 j.1 : ℚ) with hvq
  set vq' : Fin d → (Fin n → ℚ) := fun i => fun j => (B' i.1 j.1 : ℚ) with hvq'
  have hind2 : LinearIndependent ℚ vq' := linIndepRows_iff.mp hind
  have hmem : ∀ i : Fin d, vq' i ∈ Submodule.span ℚ (Set.range vq) := by
    intro i
    obtain ⟨c, hc⟩ := (hspan (B' i.1)).mpr (inSpanZ_row B' i.2)
    have he : vq' i = ∑ t : Fin d, ((c t.1 : ℚ)) • vq t := by
      funext j
      rw [Finset.sum_apply]
      show ((B' i.1 j.1 : ℤ) : ℚ) = _
      rw [hc j.1 j.2]
      push_cast
      rw [← Fin.sum_univ_eq_sum_range (fun t => (c t : ℚ) * (B t j.1 : ℚ)) d]
      apply Finset.sum_congr rfl
      intro t _
      simp only [hvq, Pi.smul_apply, smul_eq_mul]
    rw [he]
    exact Submodule.sum_mem _ fun t _ =>
      Submodule.smul_mem _ _ (Submodule.subset_span (Set.mem_range_self t))
  have hle : Submodule.span ℚ (Set.range vq') ≤ Submodule.span ℚ (Set.range vq) := by
    rw [Submodule.span_le]
    rintro x ⟨i, rfl⟩
    exact hmem i
  have hcard : (Fintype.card (Fin d) : ℕ) ≤ (Set.range vq').finrank ℚ :=
    linearIndependent_iff_card_le_finrank_span.mp hind2
  have hmono : (Set.range vq').finrank ℚ ≤ (Set.range vq).finrank ℚ :=
    Submodule.finrank_mono hle
  have : Fintype.card (Fin d) ≤ (Set.range vq).finrank ℚ := le_trans hcard hmono
  exact linIndepRows_iff.mpr (linearIndependent_iff_card_le_finrank_span.mpr this)

theorem C3_lattice_preservation_witness :
    ElemReach 2 c3wB c3wOut ∧ ∀ v, (inSpanZ 2 2 c3wB v ↔ inSpanZ 2 2 c3wOut v) :=
  C3_lattice_preservation 8 2 2 c3wB c3wOut (51 / 100) (3 / 4)
    (by with_unfolding_all rfl)


/-- Claim C8 as stated is refuted by a dimension-1 counterexample: the
single zero row is a linearly dependent family, yet `lattice_reduce`
returns normally because the main loop never runs and no division is
attempted. -/
theorem C8_counterexample_dim_one :
    isOkOut (lattice_reduce 2 1 2 (mkB [[0, 0]]) (51 / 100) (3 / 4)) = true ∧
      ¬ LinIndepRowsQ 1 2 (mkB [[0, 0]]) := by
  constructor
  · with_unfolding_all rfl
  · intro h
    have h0 := h (fun _ => 1) ?_ 0 (by omega)
    · exact one_ne_zero h0
    · intro j hj
      interval_cases j <;> with_unfolding_all decide

/-- Claim C8, amended to dimensions at least 2: the degenerate input
`[(1,0),(2,0)]` aborts with the division-by-zero panic when
`r[1][1] = 0` is used as a divisor, and for every basis of dimension
`d >= 2` whose rows are linearly dependent over the rationals, a normal
return never occurs (equivalently, a normal return implies the input
rows were linearly independent). -/
theorem C8_dependent_input_no_normal_return :
    lattice_reduce 3 2 2 (mkB [[1, 0], [2, 0]]) (51 / 100) (3 / 4) = Out.panic Err.div ∧
      ∀ (fuel d n : ℕ) (B B' : ℕ → ℕ → ℤ) (eta delta : ℚ), 2 ≤ d →
        lattice_reduce fuel d n B eta delta = Out.ok B' → LinIndepRowsQ d n B := by
  constructor
  · with_unfolding_all rfl
  · intro fuel d n B B' eta delta hd2 h
    obtain ⟨hpr, hdr, str, hmr, hbr⟩ := lattice_reduce_ok h
    obtain ⟨hp, hd1, st1, hb, hinv⟩ := lattice_reduce_ok_exit h
    subst hb
    have hdiagAll : ∀ j < d, st1.r j j ≠ 0 := by
      rcases hinv.diag with hc | hc
      · omega
      · exact hc
    obtain ⟨hre, _⟩ := inv_specR hinv
    have hD : ∀ j < d, specR (gramQ n st1.basis) j j ≠ 0 := by
      intro j hj
      rw [← hre j hj j (le_refl j)]
      exact hdiagAll j hj
    have hind : LinIndepRowsQ d n st1.basis := specR_indep hD
    have hreach : ElemReach d B st1.basis := by
      have hr2 := reduceLoop_reach (le_refl 1) hmr
      rw [hbr] at hr2
      exact hr2
    exact linIndep_transfer (ElemReach_span n hreach) hind

theorem C8_dependent_witness : LinIndepRowsQ 2 2 (mkB [[1, 0], [0, 1]]) :=
  C8_dependent_input_no_normal_return.2 8 2 2 (mkB [[1, 0], [0, 1]])
    (getOk (lattice_reduce 8 2 2 (mkB [[1, 0], [0, 1]]) (51 / 100) (3 / 4)) (mkB []))
    (51 / 100) (3 / 4) (le_refl 2) (by with_unfolding_all rfl)

/-- Concrete input for the C9 witness. -/
def c9wB : ℕ → ℕ → ℤ := mkB [[3, 1], [1, 1]]

/-- Output basis of the C9 witness run. -/
def c9wOut : ℕ → ℕ → ℤ := getOk (lattice_reduce 8 2 2 c9wB (51 / 100) (3 / 4)) (mkB [])

theorem C9_idempotent_witness :
    lattice_reduce 3 2 2 c9wOut (51 / 100) (3 / 4) = Out.ok c9wOut :=
  C9_idempotent 8 2 2 c9wB c9wOut (51 / 100) (3 / 4) (by with_unfolding_all rfl)
    3 (by omega)

/-! ## The binary64 rounding of the threshold constants

The source computes `eta_minus` and `delta_plus` (`bigl2.rs` lines
37-38) as `(eta + 0.5) / 2.` and `(delta + 1.) / 2.` in f64 and only
then converts to an exact `Rational` (exactly, per the `rug`
documentation of `Rational::from_f64`).  For admissible parameters the
sums `eta + 1/2` and `delta + 1` lie in `(1, 2]`, where the binary64
values are exactly the multiples of `2 ^ (-52)` (and `2` itself), so
the f64 addition rounds the exact sum to the nearest such multiple,
ties going to the even multiple; the subsequent division by `2.` is
exact, since the halved values lie in `(1/2, 1]` where every multiple
of `2 ^ (-53)` is representable. -/

/-- Round a rational to the nearest integer, ties to the even
integer: the rounding kernel of IEEE-754 round-to-nearest-even. -/
def rndNE (s : ℚ) : ℤ :=
  if s - (⌊s⌋ : ℚ) < 1 / 2 then ⌊s⌋
  else if 1 / 2 < s - (⌊s⌋ : ℚ) then ⌊s⌋ + 1
  else if ⌊s⌋ % 2 = 0 then ⌊s⌋ else ⌊s⌋ + 1

/-- Round a rational to the nearest multiple of `2 ^ (-52)`, ties to
the even multiple: binary64 rounding on the interval `[1, 2]`, where
the representable values are exactly these multiples.  The sums
`eta + 0.5` and `delta + 1.` of `bigl2.rs` lines 37-38 land there. -/
def rnd52 (x : ℚ) : ℚ := ((rndNE (x * 2 ^ 52) : ℤ) : ℚ) / 2 ^ 52

/-- The constant `eta_minus` the code stores (`bigl2.rs` line 37): the
f64 sum `eta + 0.5` is rounded, the division by `2.` is exact, and
`Rational::from_f64` converts exactly. -/
def etaMinusF (eta : ℚ) : ℚ := rnd52 (eta + 1 / 2) / 2

/-- The constant `delta_plus` the code stores (`bigl2.rs` line 38): the
f64 sum `delta + 1.` is rounded, the division by `2.` is exact, and
`Rational::from_f64` converts exactly. -/
def deltaPlusF (delta : ℚ) : ℚ := rnd52 (delta + 1) / 2

/-- The entry point `lattice_reduce` with the binary64-faithful
threshold constants `etaMinusF` and `deltaPlusF` in place of the
exact-arithmetic idealizations. -/
def lattice_reduceF (fuel d n : ℕ) (basis : ℕ → ℕ → ℤ) (eta delta : ℚ) :
    Out (ℕ → ℕ → ℤ) :=
  if paramsOk eta delta then
    if d = 0 then Out.panic Err.oob
    else
      match reduceLoop (etaMinusF eta) (deltaPlusF delta) d n fuel 1 (initSt d n basis) with
      | Out.fuel => Out.fuel
      | Out.panic e => Out.panic e
      | Out.ok st => Out.ok st.basis
  else Out.panic Err.param

theorem rndNE_abs_le (s : ℚ) : |(rndNE s : ℚ) - s| ≤ 1 / 2 := by
  have h0 := Int.floor_le s
  have h1 := Int.lt_floor_add_one s
  rw [rndNE]
  split_ifs with ha hb hc <;> rw [abs_le] <;> push_cast <;> constructor <;> linarith

theorem rndNE_nearest (s : ℚ) (m : ℤ) : |(rndNE s : ℚ) - s| ≤ |(m : ℚ) - s| := by
  have h0 := Int.floor_le s
  have h1 := Int.lt_floor_add_one s
  have habs := abs_nonneg ((m : ℚ) - s)
  rcases le_or_lt m ⌊s⌋ with hm | hm
  · have hmq : (m : ℚ) ≤ (⌊s⌋ : ℚ) := by exact_mod_cast hm
    have hlow : s - (m : ℚ) ≤ |(m : ℚ) - s| := by
      rw [abs_sub_comm]; exact le_abs_self _
    rw [rndNE]
    split_ifs with ha hb hc <;> rw [abs_le] <;> push_cast <;> constructor <;> linarith
  · have hmq : (⌊s⌋ : ℚ) + 1 ≤ (m : ℚ) := by exact_mod_cast hm
    have hlow : (m : ℚ) - s ≤ |(m : ℚ) - s| := le_abs_self _
    rw [rndNE]
    split_ifs with ha hb hc <;> rw [abs_le] <;> push_cast <;> constructor <;> linarith

theorem rndNE_intCast (m : ℤ) : rndNE (m : ℚ) = m := by
  simp [rndNE]

theorem eq_num_of_den_one {q : ℚ} (h : q.den = 1) : ((q.num : ℤ) : ℚ) = q := by
  conv_rhs => rw [← Rat.num_div_den q]
  rw [h]
  simp

theorem grid_decomp {y : ℚ} (h : (y * 2 ^ 52).den = 1) :
    ∃ m : ℤ, y = (m : ℚ) / 2 ^ 52 := by
  refine ⟨(y * 2 ^ 52).num, ?_⟩
  have h2 : (((y * 2 ^ 52).num : ℤ) : ℚ) = y * 2 ^ 52 := eq_num_of_den_one h
  rw [eq_div_iff (show (2 ^ 52 : ℚ) ≠ 0 by norm_num)]
  exact h2.symm

theorem den_grid_of_int (m : ℤ) (y : ℚ) (hy : y = (m : ℚ) / 2 ^ 52) :
    (y * 2 ^ 52).den = 1 := by
  subst hy
  rw [div_mul_cancel₀ _ (show (2 ^ 52 : ℚ) ≠ 0 by norm_num)]
  exact Rat.den_intCast m

theorem rnd52_den (x : ℚ) : (rnd52 x * 2 ^ 52).den = 1 := by
  rw [rnd52, div_mul_cancel₀ _ (show (2 ^ 52 : ℚ) ≠ 0 by norm_num)]
  exact Rat.den_intCast _

theorem rnd52_abs_le (x : ℚ) : |rnd52 x - x| ≤ 1 / 2 ^ 53 := by
  have h := rndNE_abs_le (x * 2 ^ 52)
  have hx : rnd52 x - x = ((rndNE (x * 2 ^ 52) : ℚ) - x * 2 ^ 52) / 2 ^ 52 := by
    rw [rnd52]; ring
  rw [hx, abs_div, abs_of_pos (show (0 : ℚ) < 2 ^ 52 by norm_num),
    div_le_iff₀ (show (0 : ℚ) < 2 ^ 52 by norm_num)]
  calc |(rndNE (x * 2 ^ 52) : ℚ) - x * 2 ^ 52| ≤ 1 / 2 := h
    _ = 1 / 2 ^ 53 * 2 ^ 52 := by norm_num

theorem rnd52_nearest (x y : ℚ) (hy : (y * 2 ^ 52).den = 1) :
    |rnd52 x - x| ≤ |y - x| := by
  obtain ⟨m, rfl⟩ := grid_decomp hy
  have h := rndNE_nearest (x * 2 ^ 52) m
  have hx : rnd52 x - x = ((rndNE (x * 2 ^ 52) : ℚ) - x * 2 ^ 52) / 2 ^ 52 := by
    rw [rnd52]; ring
  have hyx : (m : ℚ) / 2 ^ 52 - x = ((m : ℚ) - x * 2 ^ 52) / 2 ^ 52 := by ring
  rw [hx, hyx, abs_div, abs_div, abs_of_pos (show (0 : ℚ) < 2 ^ 52 by norm_num)]
  gcongr

theorem rnd52_eq_of_den (x : ℚ) (hx : (x * 2 ^ 52).den = 1) : rnd52 x = x := by
  obtain ⟨m, rfl⟩ := grid_decomp hx
  have harg : (m : ℚ) / 2 ^ 52 * 2 ^ 52 = (m : ℚ) :=
    div_mul_cancel₀ _ (show (2 ^ 52 : ℚ) ≠ 0 by norm_num)
  rw [rnd52, harg, rndNE_intCast]

/-- Claim C7, counterexample to the original statement: for the
admissible binary64 input `eta = (2^52 + 3) / 2^53 = 1/2 + 3/2^53` (a
multiple of the binary64 spacing `2^-53` on `[1/2, 1)`), the f64 sum
`eta + 0.5` of `bigl2.rs` line 37 falls exactly halfway between two
representable values and is rounded to the even neighbour, so the
constant the code stores is `1/2 + 1/2^52`, not the exact rational
`(eta + 1/2) / 2 = 1/2 + 3/2^54` the claim states. -/
theorem C7_counterexample_f64_rounding :
    ((4503599627370499 : ℚ) / 2 ^ 53 * 2 ^ 53).den = 1 ∧
      paramsOk ((4503599627370499 : ℚ) / 2 ^ 53) (3 / 4) ∧
      etaMinusF ((4503599627370499 : ℚ) / 2 ^ 53) = 1 / 2 + 1 / 2 ^ 52 ∧
      etaMinus ((4503599627370499 : ℚ) / 2 ^ 53) = 1 / 2 + 3 / 2 ^ 54 ∧
      etaMinusF ((4503599627370499 : ℚ) / 2 ^ 53) ≠
        etaMinus ((4503599627370499 : ℚ) / 2 ^ 53) := by
  have hval : etaMinusF ((4503599627370499 : ℚ) / 2 ^ 53) = 1 / 2 + 1 / 2 ^ 52 := by
    have hs : ((4503599627370499 : ℚ) / 2 ^ 53 + 1 / 2) * 2 ^ 52 =
        (9007199254740995 : ℚ) / 2 := by norm_num
    have hfloor : ⌊((9007199254740995 : ℚ) / 2)⌋ = 4503599627370497 := by
      norm_num
    rw [etaMinusF, rnd52, hs, rndNE, hfloor]
    norm_num
  have hval2 : etaMinus ((4503599627370499 : ℚ) / 2 ^ 53) = 1 / 2 + 3 / 2 ^ 54 := by
    rw [etaMinus]; norm_num
  refine ⟨?_, by norm_num [paramsOk], hval, hval2, ?_⟩
  · have he : ((4503599627370499 : ℚ) / 2 ^ 53 * 2 ^ 53) =
        ((4503599627370499 : ℤ) : ℚ) := by norm_num
    rw [he]
    exact Rat.den_intCast _
  · rw [hval, hval2]
    norm_num

/-- Claim C7, amended: the constants the code stores are the exact
rational values of the binary64 results of `(eta + 0.5) / 2.` and
`(delta + 1.) / 2.`: the sum is rounded to the nearest representable
value (`rnd52`, the closest point of the grid of multiples of
`2 ^ (-52)` covering `(1, 2]`), the halving is exact, and the
conversion to `Rational` is exact.  Each constant is within
`2 ^ (-54)` of the exact rational `(eta + 1/2) / 2`
(resp. `(delta + 1) / 2`) of the original claim, and equals it if and
only if the sum is representable; the constants lie in `[1/2, 3/4]`
(resp. `[5/8, 1]`); when both sums are representable, the faithful
entry point agrees with the exact-constant idealization used by the
other claims; and the two sides of the Lovasz test are the exact
rationals `delta_plus * r[k-1][k-1]` and
`r[k][k] + mu[k][k-1]^2 * r[k-1][k-1]` computed from the stored
constant. -/
theorem C7_threshold_constants_f64 (eta delta : ℚ)
    (heta0 : 1 / 2 < eta) (heta1 : eta < 1)
    (hdelta0 : 1 / 4 < delta) (hdelta1 : delta < 1) :
    (rnd52 (eta + 1 / 2) * 2 ^ 52).den = 1 ∧
    (rnd52 (delta + 1) * 2 ^ 52).den = 1 ∧
    (∀ y : ℚ, (y * 2 ^ 52).den = 1 →
      |rnd52 (eta + 1 / 2) - (eta + 1 / 2)| ≤ |y - (eta + 1 / 2)|) ∧
    (∀ y : ℚ, (y * 2 ^ 52).den = 1 →
      |rnd52 (delta + 1) - (delta + 1)| ≤ |y - (delta + 1)|) ∧
    |etaMinusF eta - etaMinus eta| ≤ 1 / 2 ^ 54 ∧
    |deltaPlusF delta - deltaPlus delta| ≤ 1 / 2 ^ 54 ∧
    (etaMinusF eta = etaMinus eta ↔ ((eta + 1 / 2) * 2 ^ 52).den = 1) ∧
    (deltaPlusF delta = deltaPlus delta ↔ ((delta + 1) * 2 ^ 52).den = 1) ∧
    (1 / 2 ≤ etaMinusF eta ∧ etaMinusF eta ≤ 3 / 4) ∧
    (5 / 8 ≤ deltaPlusF delta ∧ deltaPlusF delta ≤ 1) ∧
    (∀ (fuel d n : ℕ) (B : ℕ → ℕ → ℤ), ((eta + 1 / 2) * 2 ^ 52).den = 1 →
      ((delta + 1) * 2 ^ 52).den = 1 →
      lattice_reduceF fuel d n B eta delta = lattice_reduce fuel d n B eta delta) ∧
    (∀ (st : St) (k : ℕ),
      deltaCriterion (deltaPlusF delta) st k =
        deltaPlusF delta * st.r (k - 1) (k - 1) ∧
      scalarCriterion st k =
        st.r k k + st.mu k (k - 1) * st.mu k (k - 1) * st.r (k - 1) (k - 1)) := by
  refine ⟨rnd52_den _, rnd52_den _, fun y hy => rnd52_nearest _ y hy,
    fun y hy => rnd52_nearest _ y hy, ?_, ?_, ?_, ?_, ?_, ?_, ?_,
    fun st k => ⟨rfl, rfl⟩⟩
  · have h := rnd52_abs_le (eta + 1 / 2)
    have hx : etaMinusF eta - etaMinus eta =
        (rnd52 (eta + 1 / 2) - (eta + 1 / 2)) / 2 := by
      rw [etaMinusF, etaMinus]; ring
    rw [hx, abs_div, abs_of_pos (show (0 : ℚ) < 2 by norm_num),
      div_le_iff₀ (show (0 : ℚ) < 2 by norm_num)]
    calc |rnd52 (eta + 1 / 2) - (eta + 1 / 2)| ≤ 1 / 2 ^ 53 := h
      _ = 1 / 2 ^ 54 * 2 := by norm_num
  · have h := rnd52_abs_le (delta + 1)
    have hx : deltaPlusF delta - deltaPlus delta =
        (rnd52 (delta + 1) - (delta + 1)) / 2 := by
      rw [deltaPlusF, deltaPlus]; ring
    rw [hx, abs_div, abs_of_pos (show (0 : ℚ) < 2 by norm_num),
      div_le_iff₀ (show (0 : ℚ) < 2 by norm_num)]
    calc |rnd52 (delta + 1) - (delta + 1)| ≤ 1 / 2 ^ 53 := h
      _ = 1 / 2 ^ 54 * 2 := by norm_num
  · constructor
    · intro he
      rw [etaMinusF, etaMinus] at he
      have h2 : rnd52 (eta + 1 / 2) = eta + 1 / 2 := by linarith
      rw [← h2]
      exact rnd52_den _
    · intro hden
      rw [etaMinusF, etaMinus, rnd52_eq_of_den _ hden]
  · constructor
    · intro he
      rw [deltaPlusF, deltaPlus] at he
      have h2 : rnd52 (delta + 1) = delta + 1 := by linarith
      rw [← h2]
      exact rnd52_den _
    · intro hden
      rw [deltaPlusF, deltaPlus, rnd52_eq_of_den _ hden]
  · have hlo := rnd52_nearest (eta + 1 / 2) 1
      (den_grid_of_int (2 ^ 52) 1 (by push_cast; norm_num))
    have hhi := rnd52_nearest (eta + 1 / 2) (3 / 2)
      (den_grid_of_int (3 * 2 ^ 51) (3 / 2) (by push_cast; norm_num))
    have e1 : |(1 : ℚ) - (eta + 1 / 2)| = eta + 1 / 2 - 1 := by
      rw [abs_of_nonpos (by linarith)]; ring
    have e2 : |(3 / 2 : ℚ) - (eta + 1 / 2)| = 3 / 2 - (eta + 1 / 2) :=
      abs_of_nonneg (by linarith)
    rw [e1] at hlo
    rw [e2] at hhi
    have hlo2 := (abs_le.mp hlo).1
    have hhi2 := (abs_le.mp hhi).2
    rw [etaMinusF]
    constructor <;> linarith
  · have hlo := rnd52_nearest (delta + 1) (5 / 4)
      (den_grid_of_int (5 * 2 ^ 50) (5 / 4) (by push_cast; norm_num))
    have hhi := rnd52_nearest (delta + 1) 2
      (den_grid_of_int (2 ^ 53) 2 (by push_cast; norm_num))
    have e1 : |(5 / 4 : ℚ) - (delta + 1)| = delta + 1 - 5 / 4 := by
      rw [abs_of_nonpos (by linarith)]; ring
    have e2 : |(2 : ℚ) - (delta + 1)| = 2 - (delta + 1) :=
      abs_of_nonneg (by linarith)
    rw [e1] at hlo
    rw [e2] at hhi
    have hlo2 := (abs_le.mp hlo).1
    have hhi2 := (abs_le.mp hhi).2
    rw [deltaPlusF]
    constructor <;> linarith
  · intro fuel d n B hd1 hd2
    have e1 : etaMinusF eta = etaMinus eta := by
      rw [etaMinusF, etaMinus, rnd52_eq_of_den _ hd1]
    have e2 : deltaPlusF delta = deltaPlus delta := by
      rw [deltaPlusF, deltaPlus, rnd52_eq_of_den _ hd2]
    by_cases hp : paramsOk eta delta
    · by_cases hz : d = 0
      · subst hz
        rfl
      · rw [lattice_reduce_eq fuel d n B eta delta hp hz, lattice_reduceF,
          if_pos hp, if_neg hz, e1, e2]
    · rw [lattice_reduceF, lattice_reduce, if_neg hp, if_neg hp]

theorem C7_threshold_constants_f64_witness :
    |etaMinusF (3 / 4) - etaMinus (3 / 4)| ≤ 1 / 2 ^ 54 ∧
      etaMinusF (3 / 4) = etaMinus (3 / 4) ∧
      deltaPlusF (7 / 8) = deltaPlus (7 / 8) ∧
      lattice_reduceF 8 2 2 (mkB [[3, 1], [1, 1]]) (3 / 4) (7 / 8) =
        lattice_reduce 8 2 2 (mkB [[3, 1], [1, 1]]) (3 / 4) (7 / 8) := by
  obtain ⟨h1, h2, h3, h4, h5, h6, h7, h8, h9, h10, h11, h12⟩ :=
    C7_threshold_constants_f64 (3 / 4) (7 / 8) (by norm_num) (by norm_num)
      (by norm_num) (by norm_num)
  have d1 : ((3 / 4 + 1 / 2 : ℚ) * 2 ^ 52).den = 1 :=
    den_grid_of_int (5 * 2 ^ 50) (3 / 4 + 1 / 2) (by push_cast; norm_num)
  have d2 : ((7 / 8 + 1 : ℚ) * 2 ^ 52).den = 1 :=
    den_grid_of_int (15 * 2 ^ 49) (7 / 8 + 1) (by push_cast; norm_num)
  exact ⟨h5, h7.mpr d1, h8.mpr d2, h11 8 2 2 (mkB [[3, 1], [1, 1]]) d1 d2⟩

end BigL2
